import Mathlib

/-! PSX-Alpha limit order book: embedding of `main.cpp`

The development follows `OrderBook` of `PSX-Alpha Simulator/main.cpp`.

* `double` prices are only ever compared (`<`, `>` and the comparators of the two
  `std::map`s), never computed with. A price is the value a `double` denotes: NaN, minus
  infinity, a rational number, or plus infinity, with the comparisons of IEEE 754 (every
  comparison with NaN is false).
* `int` quantities are 32-bit: every subtraction and every addition the program performs
  on a quantity is reduced into the `int` range by `wrap32`.
* `std::map<double, std::vector<Order>>` is the list of its `(key, queue)` pairs in the
  iteration order of the map (`asks` ascending, `bids` descending).
* What the program writes to `std::cout` is returned as data: the `[TRADE]` lines as a
  list of `Trade` records, the lines of `print_book` as a `Snapshot`.
* `std::time(nullptr)`, read by the constructor of `Order`, is an input `now` of
  `add_order`.
-/

namespace PSXAlpha

/-- Side of an order, `enum class Side`. -/
inductive Side where
  | BUY
  | SELL
deriving DecidableEq, Repr

/-- Prices: the values of a `double` (the two zeros, which compare equal, are one value).
The program validates no price, so a call may carry any of them, NaN included. -/
inductive Price where
  | nan
  | negInf
  | fin (q : ℚ)
  | posInf
deriving DecidableEq, Repr

/-- The comparison `a < b` of two `double`s: false as soon as one of them is NaN. -/
def Price.lt : Price → Price → Bool
  | Price.negInf, Price.fin _ => true
  | Price.negInf, Price.posInf => true
  | Price.fin a, Price.fin b => decide (a < b)
  | Price.fin _, Price.posInf => true
  | _, _ => false

/-- The comparison `a <= b` of two `double`s: false as soon as one of them is NaN. -/
def Price.le : Price → Price → Bool
  | Price.nan, _ => false
  | _, Price.nan => false
  | a, b => !(Price.lt b a)

instance : LT Price := ⟨fun a b => Price.lt a b = true⟩

instance : LE Price := ⟨fun a b => Price.le a b = true⟩

instance (a b : Price) : Decidable (a < b) :=
  inferInstanceAs (Decidable (Price.lt a b = true))

instance (a b : Price) : Decidable (a ≤ b) :=
  inferInstanceAs (Decidable (Price.le a b = true))

/-- Reduction of an integer into the range of a 32-bit `int`. -/
def wrap32 (x : Int) : Int := (x + 2147483648) % 4294967296 - 2147483648

/-- The values an `int` can hold. -/
def isInt32 (x : Int) : Prop := -2147483648 ≤ x ∧ x < 2147483648

instance (x : Int) : Decidable (isInt32 x) := by
  unfold isInt32
  exact inferInstance

/-- The record `struct Order`. -/
structure Order where
  id : Int
  price : Price
  quantity : Int
  side : Side
  timestamp : Int
deriving DecidableEq, Repr

/-- One entry of a `std::map<double, std::vector<Order>>`: a key and its queue. -/
abbrev Level := Price × List Order

/-- One `[TRADE]` line: matched units, price, buyer id, seller id. -/
structure Trade where
  qty : Int
  price : Price
  buyer : Int
  seller : Int
deriving DecidableEq, Repr

/-- The two maps of `class OrderBook`, each in its own iteration order. -/
structure OrderBook where
  bids : List Level
  asks : List Level
deriving DecidableEq, Repr

/-- The book of a freshly constructed `OrderBook`. -/
def OrderBook.empty : OrderBook := ⟨[], []⟩

/-- The `[TRADE]` line printed by `match_order`: for an incoming BUY the incoming id is the
buyer and the resting order the seller, for an incoming SELL the other way round. -/
def mkTrade (side : Side) (id : Int) (best_price : Price) (trade_qty : Int)
    (resting : Order) : Trade :=
  match side with
  | Side.BUY => ⟨trade_qty, best_price, id, resting.id⟩
  | Side.SELL => ⟨trade_qty, best_price, resting.id, id⟩

/-- State left by the inner `while` loop of `match_order`. -/
structure FillResult where
  trades : List Trade
  remaining : Int
  queue : List Order
deriving DecidableEq, Repr

/-- The inner loop of `match_order`,
`while (remaining_qty > 0 && !order_queue.empty()) { ... }`, on one price level. -/
def fillQueue (side : Side) (id : Int) (best_price : Price) (remaining_qty : Int)
    (order_queue : List Order) : FillResult :=
  match order_queue with
  | [] => ⟨[], remaining_qty, []⟩
  | o :: rest =>
    if 0 < remaining_qty then
      let trade_qty := min remaining_qty o.quantity
      let rem := wrap32 (remaining_qty - trade_qty)
      let q := wrap32 (o.quantity - trade_qty)
      let r :=
        if q = 0 then fillQueue side id best_price rem rest
        else fillQueue side id best_price rem ({ o with quantity := q } :: rest)
      ⟨mkTrade side id best_price trade_qty o :: r.trades, r.remaining, r.queue⟩
    else ⟨[], remaining_qty, o :: rest⟩
termination_by 2 * order_queue.length + (if 0 < remaining_qty then 1 else 0)
decreasing_by
  all_goals simp_wf
  · split <;> omega
  · rename_i hpos hq
    have key : ∀ r q : Int, wrap32 (q - min r q) ≠ 0 → wrap32 (r - min r q) = 0 := by
      intro r q hne
      unfold wrap32 at hne ⊢
      rcases le_total r q with h | h
      · rw [min_eq_left h]; omega
      · rw [min_eq_right h] at hne; omega
    have hrem := key remaining_qty o.quantity hq
    simp [hrem, hpos]

/-- State left by the outer `while` loop of `match_order`. -/
structure MatchResult where
  trades : List Trade
  remaining : Int
  levels : List Level
deriving DecidableEq, Repr

/-- The test `if (price < best_price) break;` of the BUY branch and
`if (price > best_price) break;` of the SELL branch. -/
def noDeal (side : Side) (price best_price : Price) : Bool :=
  match side with
  | Side.BUY => decide (price < best_price)
  | Side.SELL => decide (price > best_price)

/-- The outer loop of `match_order`, `while (remaining_qty > 0 && !asks.empty()) { ... }`
(and the same loop over `bids` for a SELL): `levels` is the opposing map, its first entry
is `begin()`. -/
def matchLevels (side : Side) (id : Int) (price : Price) (remaining_qty : Int)
    (levels : List Level) : MatchResult :=
  match levels with
  | [] => ⟨[], remaining_qty, []⟩
  | (best_price, order_queue) :: rest =>
    if 0 < remaining_qty then
      if noDeal side price best_price then ⟨[], remaining_qty, (best_price, order_queue) :: rest⟩
      else
        let f := fillQueue side id best_price remaining_qty order_queue
        let r :=
          if f.queue = [] then matchLevels side id price f.remaining rest
          else matchLevels side id price f.remaining ((best_price, f.queue) :: rest)
        ⟨f.trades ++ r.trades, r.remaining, r.levels⟩
    else ⟨[], remaining_qty, (best_price, order_queue) :: rest⟩
termination_by 2 * levels.length + (if 0 < remaining_qty then 1 else 0)
decreasing_by
  all_goals simp_wf
  · split <;> omega
  · rename_i hpos _ hq
    have key : ∀ (q : List Order) (r : Int),
        (fillQueue side id best_price r q).queue ≠ [] →
          ¬ 0 < (fillQueue side id best_price r q).remaining := by
      intro q r
      induction r, q using fillQueue.induct side id best_price with
      | case1 r => intro h; simp [fillQueue] at h
      | case2 r o rest hr tq rm qn ih1 ih2 =>
        intro h
        rw [fillQueue] at h ⊢
        simp only [hr, if_true] at h ⊢
        by_cases hz : qn = 0
        · simp only [tq, rm, qn] at hz
          simp only [hz, if_true] at h ⊢
          exact ih1 h
        · simp only [tq, rm, qn] at hz
          simp only [hz, if_false] at h ⊢
          exact ih2 hz h
      | case3 r o rest hr =>
        intro _
        rw [fillQueue]
        simpa only [hr, if_false] using hr
    have hrem := key order_queue remaining_qty hq
    simp [hrem, hpos]

/-- The function `OrderBook::match_order`: the BUY branch walks `asks`, the SELL branch
`bids`; the result is the returned `remaining_qty`, the `[TRADE]` lines and the book. -/
def match_order (book : OrderBook) (id : Int) (price : Price) (quantity : Int) (side : Side) :
    List Trade × Int × OrderBook :=
  match side with
  | Side.BUY =>
    let r := matchLevels Side.BUY id price quantity book.asks
    (r.trades, r.remaining, { book with asks := r.levels })
  | Side.SELL =>
    let r := matchLevels Side.SELL id price quantity book.bids
    (r.trades, r.remaining, { book with bids := r.levels })

/-- The statement `m[price].push_back(new_order)` on a map whose key comparator is `comp`
(`std::less` for `asks`, `std::greater` for `bids`): `operator[]` finds the first key that
is not before `price`; the order goes to the end of that key's queue when the key is
equivalent to `price`, and into a fresh level in front of it otherwise. -/
def pushBack (comp : Price → Price → Bool) (price : Price) (new_order : Order) :
    List Level → List Level
  | [] => [(price, [new_order])]
  | (k, q) :: rest =>
    if comp k price then (k, q) :: pushBack comp price new_order rest
    else if comp price k then (price, [new_order]) :: (k, q) :: rest
    else (k, q ++ [new_order]) :: rest

/-- Key comparator `std::less<double>` of `asks`. -/
def lessCmp (a b : Price) : Bool := decide (a < b)

/-- Key comparator `std::greater<double>` of `bids`. -/
def greaterCmp (a b : Price) : Bool := decide (a > b)

/-- The function `OrderBook::add_order`; `now` is the value of `std::time(nullptr)` read by
the constructor of `new_order`. The result is the `[TRADE]` lines and the book. -/
def add_order (book : OrderBook) (now : Int) (id : Int) (price : Price) (quantity : Int)
    (side : Side) : List Trade × OrderBook :=
  let m := match_order book id price quantity side
  let remaining_qty := m.2.1
  if 0 < remaining_qty then
    let new_order : Order := ⟨id, price, remaining_qty, side, now⟩
    match side with
    | Side.BUY => (m.1, { m.2.2 with bids := pushBack greaterCmp price new_order m.2.2.bids })
    | Side.SELL => (m.1, { m.2.2 with asks := pushBack lessCmp price new_order m.2.2.asks })
  else (m.1, m.2.2)

/-- The loop `int total = 0; for (const auto& o : queue) total += o.quantity;` of
`print_book`, on 32-bit `int`s. -/
def levelVolume (queue : List Order) : Int :=
  queue.foldl (fun total o => wrap32 (total + o.quantity)) 0

/-- What `print_book` prints: the `Price | Vol` lines under `ASKS`, then those under
`BIDS`, each in the order printed. -/
structure Snapshot where
  asks : List (Price × Int)
  bids : List (Price × Int)
deriving DecidableEq, Repr

/-- The function `OrderBook::print_book`: `asks` is walked from `rbegin()` to `rend()`,
`bids` from `begin()` to `end()`. -/
def print_book (book : OrderBook) : Snapshot :=
  { asks := book.asks.reverse.map (fun lv => (lv.1, levelVolume lv.2))
    bids := book.bids.map (fun lv => (lv.1, levelVolume lv.2)) }

/-- The arguments of one `add_order` call, with the clock value the call reads. -/
structure Call where
  id : Int
  price : Price
  quantity : Int
  side : Side
  now : Int
deriving DecidableEq, Repr

/-- The book after a sequence of `add_order` calls. -/
def submitAll (book : OrderBook) : List Call → OrderBook
  | [] => book
  | c :: cs => submitAll (add_order book c.now c.id c.price c.quantity c.side).2 cs

/-- The keys of a map, in iteration order. -/
def keys (levels : List Level) : List Price := levels.map Prod.fst

/-- The orders of a map in priority order: levels in iteration order, each queue from
front to back. -/
def flatten (levels : List Level) : List Order := levels.flatMap Prod.snd

/-- Iteration order of the map an incoming order of side `side` is matched against:
ascending `asks` for a BUY, descending `bids` for a SELL. -/
def oppBefore (side : Side) (a b : Price) : Prop :=
  match side with
  | Side.BUY => a < b
  | Side.SELL => a > b

/-- The invariant of the two `std::map`s: keys pairwise distinct and in iteration order,
`asks` ascending and `bids` descending. -/
def OrderBook.wellFormed (book : OrderBook) : Prop :=
  (keys book.asks).Pairwise (· < ·) ∧ (keys book.bids).Pairwise (· > ·)

/-- No bid level is priced at or above an ask level. -/
def OrderBook.uncrossed (book : OrderBook) : Prop :=
  ∀ b ∈ keys book.bids, ∀ a ∈ keys book.asks, b < a

/-- The four `add_order` calls of `main`, all within one second of the clock. -/
def mainCalls : List Call :=
  [⟨101, Price.fin (211 / 2), 100, Side.SELL, 0⟩, ⟨102, Price.fin 106, 50, Side.SELL, 0⟩,
    ⟨201, Price.fin 104, 200, Side.BUY, 0⟩, ⟨301, Price.fin (211 / 2), 120, Side.BUY, 0⟩]

/-- The book of `main` at its first `print_book`, after the three passive orders. -/
def mainBook : OrderBook :=
  { bids := [(Price.fin 104, [⟨201, Price.fin 104, 200, Side.BUY, 0⟩])]
    asks := [(Price.fin (211 / 2), [⟨101, Price.fin (211 / 2), 100, Side.SELL, 0⟩]), (Price.fin 106, [⟨102, Price.fin 106, 50, Side.SELL, 0⟩])] }

/-- Sum of the matched units of a list of `[TRADE]` lines. -/
def tradedQty (trades : List Trade) : Int := (trades.map Trade.qty).sum

/-- The map an incoming order of side `side` is matched against. -/
def opposing (side : Side) (book : OrderBook) : List Level :=
  match side with
  | Side.BUY => book.asks
  | Side.SELL => book.bids

/-- The map an incoming order of side `side` rests on. -/
def sameSide (side : Side) (book : OrderBook) : List Level :=
  match side with
  | Side.BUY => book.bids
  | Side.SELL => book.asks

/-- The id of the resting order named on a `[TRADE]` line of an incoming order of side
`side`: the seller for a BUY, the buyer for a SELL. -/
def Trade.restingId (side : Side) (t : Trade) : Int :=
  match side with
  | Side.BUY => t.seller
  | Side.SELL => t.buyer

/-- The orders of a map in priority order, each with the key of its level. -/
def tagged (levels : List Level) : List (Price × Order) :=
  levels.flatMap (fun lv => lv.2.map (fun o => (lv.1, o)))

/-- The `[TRADE]` line of a resting order filled for its entire quantity at the key of
its level. -/
def fullTrade (side : Side) (id : Int) (x : Price × Order) : Trade :=
  mkTrade side id x.1 x.2.quantity x.2

/-- The crossing test in the words of the specification: a BUY crosses an ask level when
`incoming.price ≥ level.price`, a SELL crosses a bid level when
`incoming.price ≤ level.price`. -/
def crosses (side : Side) (price level_price : Price) : Prop :=
  match side with
  | Side.BUY => price ≥ level_price
  | Side.SELL => price ≤ level_price

instance (side : Side) (price level_price : Price) :
    Decidable (crosses side price level_price) := by
  cases side <;> (unfold crosses; exact inferInstance)

/-- Exact sum of the quantities of the orders of a queue. -/
def queueQty (queue : List Order) : Int := (queue.map Order.quantity).sum

/-- The quantity `L` resting on the levels of a map that satisfy the crossing test against
`price`. -/
def crossableQty (side : Side) (price : Price) (levels : List Level) : Int :=
  ((levels.filter (fun lv => decide (crosses side price lv.1))).map
    (fun lv => queueQty lv.2)).sum

/-- Every level of a map holds at least one order, and every order held has a positive
quantity that fits an `int`. -/
def goodLevels (levels : List Level) : Prop :=
  ∀ lv ∈ levels, lv.2 ≠ [] ∧ ∀ o ∈ lv.2, 0 < o.quantity ∧ o.quantity < 2147483648

/-- Four SELL orders of `2^30` units at one price: each quantity fits an `int`, their sum
does not. -/
def overflowCalls : List Call :=
  [⟨1, Price.fin 100, 1073741824, Side.SELL, 0⟩, ⟨2, Price.fin 100, 1073741824, Side.SELL, 0⟩,
    ⟨3, Price.fin 100, 1073741824, Side.SELL, 0⟩, ⟨4, Price.fin 100, 1073741824, Side.SELL, 0⟩]

/-- A sequence of calls with a partial fill and with a negative and a zero quantity. -/
def mixedCalls : List Call :=
  [⟨1, Price.fin 100, 10, Side.SELL, 0⟩, ⟨2, Price.fin 100, -5, Side.BUY, 1⟩, ⟨3, Price.fin 100, 0, Side.BUY, 2⟩,
    ⟨4, Price.fin 100, 4, Side.BUY, 3⟩]

/-- Iteration order of the map an order of side `side` rests on: descending `bids` for a
BUY, ascending `asks` for a SELL. -/
def sameBefore (side : Side) (a b : Price) : Prop :=
  match side with
  | Side.BUY => a > b
  | Side.SELL => a < b

/-- A book with two ask levels, the first holding two orders, and one bid. -/
def deepBook : OrderBook :=
  { bids := [(Price.fin 99, [⟨20, Price.fin 99, 8, Side.BUY, 0⟩])]
    asks := [(Price.fin 100, [⟨11, Price.fin 100, 10, Side.SELL, 0⟩, ⟨12, Price.fin 100, 5, Side.SELL, 1⟩]),
      (Price.fin 101, [⟨13, Price.fin 101, 7, Side.SELL, 2⟩])] }

/-- The three passive `add_order` calls of `main`, read at clock values `t1`, `t2`, `t3`. -/
def passiveCalls (t1 t2 t3 : Int) : List Call :=
  [⟨101, Price.fin (211 / 2), 100, Side.SELL, t1⟩, ⟨102, Price.fin 106, 50, Side.SELL, t2⟩,
    ⟨201, Price.fin 104, 200, Side.BUY, t3⟩]

/-- Two SELL orders of `2^30` units at one price: each quantity fits an `int`, their sum,
`2^31`, does not. -/
def wrapCalls : List Call :=
  [⟨1, Price.fin 100, 1073741824, Side.SELL, 0⟩, ⟨2, Price.fin 100, 1073741824, Side.SELL, 0⟩]

/-- Every order of a map sits in the level keyed by its own price and is of side `side`. -/
def homogeneous (side : Side) (levels : List Level) : Prop :=
  ∀ lv ∈ levels, ∀ o ∈ lv.2, o.price = lv.1 ∧ o.side = side

/-- Within every queue of a map the timestamps do not decrease from front to back, and no
timestamp is later than `T`. -/
def stamped (T : Int) (levels : List Level) : Prop :=
  ∀ lv ∈ levels, (lv.2.map Order.timestamp).Pairwise (· ≤ ·) ∧ ∀ o ∈ lv.2, o.timestamp ≤ T

/-- Two SELL orders at one price submitted within the same second of the clock. -/
def sameSecondCalls : List Call :=
  [⟨1, Price.fin 100, 10, Side.SELL, 7⟩, ⟨2, Price.fin 100, 10, Side.SELL, 7⟩]

/-- One pass through the body of the inner loop of `match_order`, entered with
`remaining_qty > 0` and the order `o` at the front of the queue: the `[TRADE]` line, the new
`remaining_qty` and the queue it leaves. -/
def fillStep (side : Side) (id : Int) (best_price : Price) (remaining_qty : Int) (o : Order)
    (rest : List Order) : Trade × Int × List Order :=
  let trade_qty := min remaining_qty o.quantity
  let q := wrap32 (o.quantity - trade_qty)
  (mkTrade side id best_price trade_qty o, wrap32 (remaining_qty - trade_qty),
    if q = 0 then rest else { o with quantity := q } :: rest)

/-- A book with one bid level and no ask. -/
def bidOnlyBook : OrderBook :=
  { bids := [(Price.fin 104, [⟨201, Price.fin 104, 200, Side.BUY, 0⟩])], asks := [] }

/-- A book with one ask level and no bid. -/
def askOnlyBook : OrderBook :=
  { bids := [], asks := [(Price.fin 106, [⟨102, Price.fin 106, 50, Side.SELL, 0⟩])] }

/-- A BUY at 104 followed by a BUY whose price is NaN. -/
def nanCalls : List Call :=
  [⟨1, Price.fin 104, 10, Side.BUY, 0⟩, ⟨2, Price.nan, 5, Side.BUY, 1⟩]

/-- The key comparator of the map an order of side `side` rests on: `std::greater` for
`bids`, `std::less` for `asks`. -/
def sameCmp (side : Side) : Price → Price → Bool :=
  match side with
  | Side.BUY => greaterCmp
  | Side.SELL => lessCmp

/-! ## The comparisons of prices -/

theorem Price.lt_iff (a b : Price) : a < b ↔ Price.lt a b = true := Iff.rfl

theorem Price.le_iff (a b : Price) : a ≤ b ↔ Price.le a b = true := Iff.rfl

@[simp]
theorem Price.fin_lt_fin (a b : ℚ) : Price.fin a < Price.fin b ↔ a < b := by
  simp [Price.lt_iff, Price.lt]

@[simp]
theorem Price.fin_le_fin (a b : ℚ) : Price.fin a ≤ Price.fin b ↔ a ≤ b := by
  simp [Price.le_iff, Price.le, Price.lt]

@[simp]
theorem Price.not_nan_lt (a : Price) : ¬ Price.nan < a := by
  simp [Price.lt_iff, Price.lt]

@[simp]
theorem Price.not_lt_nan (a : Price) : ¬ a < Price.nan := by
  cases a <;> simp [Price.lt_iff, Price.lt]

@[simp]
theorem Price.not_nan_le (a : Price) : ¬ Price.nan ≤ a := by
  simp [Price.le_iff, Price.le]

@[simp]
theorem Price.not_le_nan (a : Price) : ¬ a ≤ Price.nan := by
  cases a <;> simp [Price.le_iff, Price.le]

theorem Price.lt_of_lt_of_lt {a b c : Price} (h1 : a < b) (h2 : b < c) : a < c := by
  cases a <;> cases b <;> cases c <;> simp [Price.lt_iff, Price.lt] at h1 h2 ⊢
  exact lt_trans h1 h2

theorem Price.not_lt_self (a : Price) : ¬ a < a := by
  cases a <;> simp [Price.lt_iff, Price.lt]

/-- Two prices neither of which is NaN and neither of which is below the other are
equal. -/
theorem Price.eq_of_not_lt {a b : Price} (ha : a ≠ Price.nan) (hb : b ≠ Price.nan)
    (h1 : ¬ a < b) (h2 : ¬ b < a) : a = b := by
  cases a <;> cases b <;> simp [Price.lt_iff, Price.lt] at h1 h2 ha hb ⊢
  exact le_antisymm h2 h1

theorem Price.le_iff_not_lt {a b : Price} (ha : a ≠ Price.nan) (hb : b ≠ Price.nan) :
    a ≤ b ↔ ¬ b < a := by
  cases a <;> cases b <;> simp [Price.lt_iff, Price.le_iff, Price.le, Price.lt] at ha hb ⊢

theorem Price.not_lt_of_le {a b : Price} (h : a ≤ b) : ¬ b < a := by
  cases a <;> cases b <;> simp [Price.lt_iff, Price.le_iff, Price.le, Price.lt] at h ⊢
  exact h

theorem Price.not_le_of_lt {a b : Price} (h : a < b) : ¬ b ≤ a :=
  fun h2 => Price.not_lt_of_le h2 h

/-! ## Unfolding the two loops -/

theorem fillQueue_nil (side : Side) (id : Int) (bp : Price) (r : Int) :
    fillQueue side id bp r [] = ⟨[], r, []⟩ := by
  rw [fillQueue]

theorem fillQueue_stop (side : Side) (id : Int) (bp : Price) (r : Int) (o : Order)
    (rest : List Order) (hr : ¬ 0 < r) :
    fillQueue side id bp r (o :: rest) = ⟨[], r, o :: rest⟩ := by
  rw [fillQueue]
  simp only [hr, if_false]

theorem fillQueue_done (side : Side) (id : Int) (bp : Price) (r : Int) (q : List Order)
    (hr : ¬ 0 < r) : fillQueue side id bp r q = ⟨[], r, q⟩ := by
  cases q with
  | nil => exact fillQueue_nil side id bp r
  | cons o rest => exact fillQueue_stop side id bp r o rest hr

/-- The front order is emptied by the trade and erased; the loop goes on with the rest. -/
theorem fillQueue_pop (side : Side) (id : Int) (bp : Price) (r : Int) (o : Order)
    (rest : List Order) (hr : 0 < r) (hz : wrap32 (o.quantity - min r o.quantity) = 0) :
    fillQueue side id bp r (o :: rest) =
      ⟨mkTrade side id bp (min r o.quantity) o ::
          (fillQueue side id bp (wrap32 (r - min r o.quantity)) rest).trades,
        (fillQueue side id bp (wrap32 (r - min r o.quantity)) rest).remaining,
        (fillQueue side id bp (wrap32 (r - min r o.quantity)) rest).queue⟩ := by
  rw [fillQueue]
  simp only [hr, hz, if_true]

theorem wrap32_rem_of_front_left (r q : Int) (hq : wrap32 (q - min r q) ≠ 0) :
    wrap32 (r - min r q) = 0 := by
  unfold wrap32 at hq ⊢
  rcases le_total r q with h | h
  · rw [min_eq_left h]; omega
  · rw [min_eq_right h] at hq; omega

/-- The front order keeps a non-zero quantity: the incoming quantity is used up and the
loop ends with that order still at the front. -/
theorem fillQueue_keep (side : Side) (id : Int) (bp : Price) (r : Int) (o : Order)
    (rest : List Order) (hr : 0 < r) (hz : wrap32 (o.quantity - min r o.quantity) ≠ 0) :
    fillQueue side id bp r (o :: rest) =
      ⟨[mkTrade side id bp (min r o.quantity) o], 0,
        { o with quantity := wrap32 (o.quantity - min r o.quantity) } :: rest⟩ := by
  rw [fillQueue]
  simp only [hr, hz, if_true, if_false]
  rw [wrap32_rem_of_front_left r o.quantity hz, fillQueue_stop _ _ _ _ _ _ (by decide)]

/-- When the inner loop leaves orders in the queue, nothing is left to fill. -/
theorem fillQueue_remaining_of_queue (side : Side) (id : Int) (bp : Price) (q : List Order) :
    ∀ r : Int, (fillQueue side id bp r q).queue ≠ [] →
      ¬ 0 < (fillQueue side id bp r q).remaining := by
  induction q with
  | nil => intro r h; simp [fillQueue_nil] at h
  | cons o rest ih =>
    intro r h
    by_cases hr : 0 < r
    · by_cases hz : wrap32 (o.quantity - min r o.quantity) = 0
      · rw [fillQueue_pop side id bp r o rest hr hz] at h ⊢
        exact ih _ h
      · rw [fillQueue_keep side id bp r o rest hr hz]
        exact lt_irrefl 0
    · rw [fillQueue_stop side id bp r o rest hr]
      exact hr

theorem matchLevels_nil (side : Side) (id : Int) (price : Price) (r : Int) :
    matchLevels side id price r [] = ⟨[], r, []⟩ := by
  rw [matchLevels]

theorem matchLevels_stop (side : Side) (id : Int) (price : Price) (r : Int)
    (levels : List Level) (hr : ¬ 0 < r) :
    matchLevels side id price r levels = ⟨[], r, levels⟩ := by
  cases levels with
  | nil => exact matchLevels_nil side id price r
  | cons lv rest =>
    obtain ⟨bp, q⟩ := lv
    rw [matchLevels]
    simp only [hr, if_false]

theorem matchLevels_noDeal (side : Side) (id : Int) (price : Price) (r : Int) (bp : Price)
    (q : List Order) (rest : List Level) (hr : 0 < r) (hn : noDeal side price bp = true) :
    matchLevels side id price r ((bp, q) :: rest) = ⟨[], r, (bp, q) :: rest⟩ := by
  rw [matchLevels]
  simp only [hr, hn, if_true]

/-- The best level crosses and is emptied: it is erased and the loop goes on with the
next level. -/
theorem matchLevels_erase (side : Side) (id : Int) (price : Price) (r : Int) (bp : Price)
    (q : List Order) (rest : List Level) (hr : 0 < r) (hn : noDeal side price bp = false)
    (hq : (fillQueue side id bp r q).queue = []) :
    matchLevels side id price r ((bp, q) :: rest) =
      ⟨(fillQueue side id bp r q).trades ++
          (matchLevels side id price (fillQueue side id bp r q).remaining rest).trades,
        (matchLevels side id price (fillQueue side id bp r q).remaining rest).remaining,
        (matchLevels side id price (fillQueue side id bp r q).remaining rest).levels⟩ := by
  rw [matchLevels]
  simp [hr, hn, hq]

/-- The best level crosses and keeps orders: the incoming quantity is used up and the loop
ends with that level still first. -/
theorem matchLevels_keep (side : Side) (id : Int) (price : Price) (r : Int) (bp : Price)
    (q : List Order) (rest : List Level) (hr : 0 < r) (hn : noDeal side price bp = false)
    (hq : (fillQueue side id bp r q).queue ≠ []) :
    matchLevels side id price r ((bp, q) :: rest) =
      ⟨(fillQueue side id bp r q).trades, (fillQueue side id bp r q).remaining,
        (bp, (fillQueue side id bp r q).queue) :: rest⟩ := by
  rw [matchLevels]
  simp only [hr, hn, hq, if_true, if_false]
  rw [matchLevels_stop _ _ _ _ _ (fillQueue_remaining_of_queue side id bp q r hq)]
  simp

/-! ## The opposing side after matching -/

theorem noDeal_of_oppBefore (side : Side) (price a b : Price)
    (ha : noDeal side price a = true) (hab : oppBefore side a b) :
    noDeal side price b = true := by
  cases side
  · simp only [noDeal, oppBefore, decide_eq_true_eq] at *
    exact Price.lt_of_lt_of_lt ha hab
  · simp only [noDeal, oppBefore, decide_eq_true_eq] at *
    exact Price.lt_of_lt_of_lt hab ha

/-- Matching only removes levels from the front: the keys left are a tail of the keys
before. -/
theorem matchLevels_keys (side : Side) (id : Int) (price : Price) (levels : List Level) :
    ∀ r : Int, ∃ pre : List Price,
      keys levels = pre ++ keys (matchLevels side id price r levels).levels := by
  induction levels with
  | nil => intro r; exact ⟨[], by simp [matchLevels_nil, keys]⟩
  | cons lv rest ih =>
    intro r
    obtain ⟨bp, q⟩ := lv
    by_cases hr : 0 < r
    · cases hn : noDeal side price bp
      · by_cases hq : (fillQueue side id bp r q).queue = []
        · rw [matchLevels_erase side id price r bp q rest hr hn hq]
          obtain ⟨pre, hpre⟩ := ih (fillQueue side id bp r q).remaining
          refine ⟨bp :: pre, ?_⟩
          simp only [keys, List.map_cons, List.cons_append] at hpre ⊢
          rw [hpre]
        · rw [matchLevels_keep side id price r bp q rest hr hn hq]
          exact ⟨[], by simp [keys]⟩
      · rw [matchLevels_noDeal side id price r bp q rest hr hn]
        exact ⟨[], by simp⟩
    · rw [matchLevels_stop side id price r _ hr]
      exact ⟨[], by simp⟩

/-- When the outer loop returns with quantity still to fill, the opposing map is empty or
its first level fails the crossing test. -/
theorem matchLevels_exit (side : Side) (id : Int) (price : Price) (levels : List Level) :
    ∀ r : Int, 0 < (matchLevels side id price r levels).remaining →
      ∀ lv ∈ (matchLevels side id price r levels).levels.head?,
        noDeal side price lv.1 = true := by
  induction levels with
  | nil => intro r _ lv hlv; simp [matchLevels_nil] at hlv
  | cons lv rest ih =>
    intro r hrem
    obtain ⟨bp, q⟩ := lv
    by_cases hr : 0 < r
    · cases hn : noDeal side price bp
      · by_cases hq : (fillQueue side id bp r q).queue = []
        · rw [matchLevels_erase side id price r bp q rest hr hn hq] at hrem ⊢
          exact ih _ hrem
        · rw [matchLevels_keep side id price r bp q rest hr hn hq] at hrem
          exact absurd hrem (fillQueue_remaining_of_queue side id bp q r hq)
      · rw [matchLevels_noDeal side id price r bp q rest hr hn]
        intro lv hlv
        simp only [List.head?_cons, Option.mem_def, Option.some.injEq] at hlv
        rw [← hlv]; exact hn
    · rw [matchLevels_stop side id price r _ hr] at hrem
      exact absurd hrem hr

/-- On a map in iteration order, quantity left after matching means that no level left
satisfies the crossing test. -/
theorem matchLevels_blocked (side : Side) (id : Int) (price : Price) (levels : List Level)
    (r : Int) (hs : (keys levels).Pairwise (oppBefore side))
    (hrem : 0 < (matchLevels side id price r levels).remaining) :
    ∀ k ∈ keys (matchLevels side id price r levels).levels, noDeal side price k = true := by
  obtain ⟨pre, hpre⟩ := matchLevels_keys side id price levels r
  have hexit := matchLevels_exit side id price levels r hrem
  rw [hpre] at hs
  have hs2 := (List.pairwise_append.mp hs).2.1
  revert hexit hs2
  generalize (matchLevels side id price r levels).levels = out
  intro hexit hs2 k hk
  cases out with
  | nil => simp [keys] at hk
  | cons lv rest =>
    have h0 : noDeal side price lv.1 = true := hexit lv (by simp)
    simp only [keys, List.map_cons, List.mem_cons] at hk
    rcases hk with hk | hk
    · rw [hk]; exact h0
    · simp only [keys, List.map_cons, List.pairwise_cons] at hs2
      exact noDeal_of_oppBefore side price lv.1 k h0 (hs2.1 k hk)

/-! ## Insertion into a map -/

theorem mem_keys_pushBack (comp : Price → Price → Bool) (p : Price) (o : Order)
    (levels : List Level) (k : Price) (hk : k ∈ keys (pushBack comp p o levels)) :
    k = p ∨ k ∈ keys levels := by
  induction levels with
  | nil => simpa [pushBack, keys] using hk
  | cons lv rest ih =>
    obtain ⟨k0, q⟩ := lv
    simp only [pushBack] at hk
    split at hk
    · simp only [keys, List.map_cons, List.mem_cons] at hk ih ⊢
      rcases hk with hk | hk
      · exact Or.inr (Or.inl hk)
      · rcases ih hk with h | h
        · exact Or.inl h
        · exact Or.inr (Or.inr h)
    · split at hk
      · simpa [keys] using hk
      · exact Or.inr (by simpa [keys] using hk)

/-- Insertion keeps a map in iteration order, for a comparator that decides a strict
order. -/
theorem pairwise_keys_pushBack (comp : Price → Price → Bool) (R : Price → Price → Prop)
    (hcomp : ∀ a b, comp a b = true ↔ R a b) (htrans : ∀ a b c, R a b → R b c → R a c)
    (p : Price) (o : Order) (levels : List Level) (hs : (keys levels).Pairwise R) :
    (keys (pushBack comp p o levels)).Pairwise R := by
  induction levels with
  | nil => simp [pushBack, keys]
  | cons lv rest ih =>
    obtain ⟨k0, q⟩ := lv
    simp only [keys, List.map_cons, List.pairwise_cons] at hs
    simp only [pushBack]
    split
    · rename_i h1
      simp only [keys, List.map_cons, List.pairwise_cons]
      refine ⟨?_, ih hs.2⟩
      intro x hx
      rcases mem_keys_pushBack comp p o rest x hx with h | h
      · rw [h]; exact (hcomp k0 p).mp h1
      · exact hs.1 x h
    · split
      · rename_i _ h2
        simp only [keys, List.map_cons, List.pairwise_cons, List.mem_cons]
        refine ⟨?_, hs⟩
        intro x hx
        rcases hx with hx | hx
        · rw [hx]; exact (hcomp p k0).mp h2
        · exact htrans p k0 x ((hcomp p k0).mp h2) (hs.1 x hx)
      · simpa [keys] using hs

theorem pairwise_keys_pushBack_less (p : Price) (o : Order) (levels : List Level)
    (hs : (keys levels).Pairwise (· < ·)) :
    (keys (pushBack lessCmp p o levels)).Pairwise (· < ·) :=
  pairwise_keys_pushBack lessCmp (· < ·) (fun a b => by simp [lessCmp])
    (fun _ _ _ h1 h2 => Price.lt_of_lt_of_lt h1 h2) p o levels hs

theorem pairwise_keys_pushBack_greater (p : Price) (o : Order) (levels : List Level)
    (hs : (keys levels).Pairwise (· > ·)) :
    (keys (pushBack greaterCmp p o levels)).Pairwise (· > ·) :=
  pairwise_keys_pushBack greaterCmp (· > ·) (fun a b => by simp [greaterCmp])
    (fun _ _ _ h1 h2 => Price.lt_of_lt_of_lt h2 h1) p o levels hs

/-! ## The book is never left crossed -/

/-- One `add_order` call keeps both maps in iteration order and the book uncrossed. -/
theorem add_order_keeps_uncrossed (book : OrderBook) (now id : Int) (price : Price)
    (quantity : Int) (side : Side) (hw : book.wellFormed) (hu : book.uncrossed) :
    (add_order book now id price quantity side).2.wellFormed ∧
      (add_order book now id price quantity side).2.uncrossed := by
  obtain ⟨hasks, hbids⟩ := hw
  cases side
  · -- BUY: matched against `asks`, rested on `bids`
    obtain ⟨pre, hpre⟩ := matchLevels_keys Side.BUY id price book.asks quantity
    have hasks2 : (keys (matchLevels Side.BUY id price quantity book.asks).levels).Pairwise
        (· < ·) := by
      rw [hpre] at hasks
      exact (List.pairwise_append.mp hasks).2.1
    have hsub : ∀ a ∈ keys (matchLevels Side.BUY id price quantity book.asks).levels,
        a ∈ keys book.asks := by
      intro a ha; rw [hpre]; exact List.mem_append_right _ ha
    simp only [add_order, match_order]
    split
    · rename_i hrem
      have hblocked := matchLevels_blocked Side.BUY id price book.asks quantity hasks hrem
      refine ⟨⟨hasks2, pairwise_keys_pushBack_greater _ _ _ hbids⟩, ?_⟩
      intro b hb a ha
      rcases mem_keys_pushBack _ _ _ _ _ hb with h | h
      · have := hblocked a ha
        simp only [noDeal, decide_eq_true_eq] at this
        rw [h]; exact this
      · exact hu b h a (hsub a ha)
    · exact ⟨⟨hasks2, hbids⟩, fun b hb a ha => hu b hb a (hsub a ha)⟩
  · -- SELL: matched against `bids`, rested on `asks`
    obtain ⟨pre, hpre⟩ := matchLevels_keys Side.SELL id price book.bids quantity
    have hbids2 : (keys (matchLevels Side.SELL id price quantity book.bids).levels).Pairwise
        (· > ·) := by
      rw [hpre] at hbids
      exact (List.pairwise_append.mp hbids).2.1
    have hsub : ∀ b ∈ keys (matchLevels Side.SELL id price quantity book.bids).levels,
        b ∈ keys book.bids := by
      intro b hb; rw [hpre]; exact List.mem_append_right _ hb
    simp only [add_order, match_order]
    split
    · rename_i hrem
      have hblocked := matchLevels_blocked Side.SELL id price book.bids quantity hbids hrem
      refine ⟨⟨pairwise_keys_pushBack_less _ _ _ hasks, hbids2⟩, ?_⟩
      intro b hb a ha
      rcases mem_keys_pushBack _ _ _ _ _ ha with h | h
      · have := hblocked b hb
        simp only [noDeal, decide_eq_true_eq] at this
        rw [h]; exact this
      · exact hu b (hsub b hb) a h
    · exact ⟨⟨hasks, hbids2⟩, fun b hb a ha => hu b (hsub b hb) a ha⟩

theorem submitAll_keeps_uncrossed (calls : List Call) :
    ∀ book : OrderBook, book.wellFormed → book.uncrossed →
      (submitAll book calls).wellFormed ∧ (submitAll book calls).uncrossed := by
  induction calls with
  | nil => intro book hw hu; exact ⟨hw, hu⟩
  | cons c cs ih =>
    intro book hw hu
    have h := add_order_keeps_uncrossed book c.now c.id c.price c.quantity c.side hw hu
    exact ih _ h.1 h.2

theorem empty_wellFormed : OrderBook.empty.wellFormed := by
  simp [OrderBook.wellFormed, OrderBook.empty, keys]

theorem empty_uncrossed : OrderBook.empty.uncrossed := by
  intro b hb; simp [OrderBook.empty, keys] at hb

/-- C1. In every book reached from the empty book by a sequence of `add_order` calls
(any id, price, quantity, side and clock value), every bid level is priced strictly below
every ask level: when both sides are non-empty, the highest bid price is strictly less
than the lowest ask price. -/
theorem no_crossed_book (calls : List Call) (b a : Price)
    (hb : b ∈ keys (submitAll OrderBook.empty calls).bids)
    (ha : a ∈ keys (submitAll OrderBook.empty calls).asks) : b < a :=
  (submitAll_keeps_uncrossed calls OrderBook.empty empty_wellFormed empty_uncrossed).2 b hb a ha

theorem submitAll_mainCalls :
    submitAll OrderBook.empty mainCalls =
      { bids := [(Price.fin (211 / 2), [⟨301, Price.fin (211 / 2), 20, Side.BUY, 0⟩]), (Price.fin 104, [⟨201, Price.fin 104, 200, Side.BUY, 0⟩])]
        asks := [(Price.fin 106, [⟨102, Price.fin 106, 50, Side.SELL, 0⟩])] } := by
  norm_num [mainCalls, submitAll, add_order, match_order, matchLevels_nil, matchLevels_noDeal,
    matchLevels_erase, matchLevels_keep, fillQueue_nil, fillQueue_pop, fillQueue_keep, pushBack,
    OrderBook.empty, wrap32, noDeal, lessCmp, greaterCmp, mkTrade]

/-- Witness of C1: in the final book of `main` the bid level `105.5` lies below the ask
level `106`. -/
theorem no_crossed_book_witness :
    (Price.fin (211 / 2)) ∈ keys (submitAll OrderBook.empty mainCalls).bids ∧
      (Price.fin 106) ∈ keys (submitAll OrderBook.empty mainCalls).asks ∧
      Price.fin (211 / 2) < Price.fin 106 :=
  ⟨by rw [submitAll_mainCalls]; simp [keys], by rw [submitAll_mainCalls]; simp [keys],
    no_crossed_book mainCalls (Price.fin (211 / 2)) (Price.fin 106) (by rw [submitAll_mainCalls]; simp [keys])
      (by rw [submitAll_mainCalls]; simp [keys])⟩

/-! ## Conservation of the incoming quantity -/

theorem wrap32_of_isInt32 (x : Int) (h : isInt32 x) : wrap32 x = x := by
  unfold isInt32 at h
  unfold wrap32
  omega

theorem tradedQty_nil : tradedQty [] = 0 := rfl

theorem tradedQty_cons (t : Trade) (ts : List Trade) :
    tradedQty (t :: ts) = t.qty + tradedQty ts := by
  simp [tradedQty]

theorem tradedQty_append (ts us : List Trade) :
    tradedQty (ts ++ us) = tradedQty ts + tradedQty us := by
  simp [tradedQty]

theorem mkTrade_qty (side : Side) (id : Int) (bp : Price) (t : Int) (o : Order) :
    (mkTrade side id bp t o).qty = t := by
  cases side <;> rfl

/-- The inner loop on a queue of positive quantities: what is left plus what was traded
is what came in. -/
theorem fillQueue_conservation (side : Side) (id : Int) (bp : Price) (q : List Order)
    (hpos : ∀ o ∈ q, 0 < o.quantity) :
    ∀ r : Int, 0 ≤ r → r < 2147483648 →
      0 ≤ (fillQueue side id bp r q).remaining ∧
        (fillQueue side id bp r q).remaining + tradedQty (fillQueue side id bp r q).trades = r := by
  induction q with
  | nil => intro r h0 _; simp [fillQueue_nil, tradedQty_nil, h0]
  | cons o rest ih =>
    intro r h0 h1
    have ho : 0 < o.quantity := hpos o (List.mem_cons_self _ _)
    by_cases hr : 0 < r
    · by_cases hz : wrap32 (o.quantity - min r o.quantity) = 0
      · rw [fillQueue_pop side id bp r o rest hr hz]
        have hmin1 : 0 < min r o.quantity := lt_min hr ho
        have hmin2 : min r o.quantity ≤ r := min_le_left _ _
        have hw : wrap32 (r - min r o.quantity) = r - min r o.quantity :=
          wrap32_of_isInt32 _ ⟨by omega, by omega⟩
        rw [hw]
        obtain ⟨ih1, ih2⟩ := ih (fun x hx => hpos x (List.mem_cons_of_mem _ hx))
          (r - min r o.quantity) (by omega) (by omega)
        refine ⟨ih1, ?_⟩
        simp only [tradedQty_cons, mkTrade_qty]
        omega
      · rw [fillQueue_keep side id bp r o rest hr hz]
        have hmin : min r o.quantity = r := by
          rcases le_total r o.quantity with h | h
          · exact min_eq_left h
          · rw [min_eq_right h] at hz
            exact absurd (by simp [wrap32]) hz
        simp [tradedQty_cons, tradedQty_nil, mkTrade_qty, hmin]
    · rw [fillQueue_stop side id bp r o rest hr]
      simp [tradedQty_nil, h0]

theorem fillQueue_remaining_le (side : Side) (id : Int) (bp : Price) (q : List Order)
    (hpos : ∀ o ∈ q, 0 < o.quantity) :
    ∀ r : Int, 0 ≤ r → r < 2147483648 → (fillQueue side id bp r q).remaining ≤ r := by
  induction q with
  | nil => intro r _ _; simp [fillQueue_nil]
  | cons o rest ih =>
    intro r h0 h1
    have ho : 0 < o.quantity := hpos o (List.mem_cons_self _ _)
    by_cases hr : 0 < r
    · by_cases hz : wrap32 (o.quantity - min r o.quantity) = 0
      · rw [fillQueue_pop side id bp r o rest hr hz]
        have hmin1 : 0 < min r o.quantity := lt_min hr ho
        have hmin2 : min r o.quantity ≤ r := min_le_left _ _
        have hw : wrap32 (r - min r o.quantity) = r - min r o.quantity :=
          wrap32_of_isInt32 _ ⟨by omega, by omega⟩
        rw [hw]
        have := ih (fun x hx => hpos x (List.mem_cons_of_mem _ hx))
          (r - min r o.quantity) (by omega) (by omega)
        simp only
        omega
      · rw [fillQueue_keep side id bp r o rest hr hz]
        exact h0
    · rw [fillQueue_stop side id bp r o rest hr]

/-- The outer loop on a map of positive quantities: what is left plus what was traded is
what came in, and what is left lies between 0 and what came in. -/
theorem matchLevels_conservation (side : Side) (id : Int) (price : Price)
    (levels : List Level) (hpos : ∀ o ∈ flatten levels, 0 < o.quantity) :
    ∀ r : Int, 0 ≤ r → r < 2147483648 →
      0 ≤ (matchLevels side id price r levels).remaining ∧
        (matchLevels side id price r levels).remaining ≤ r ∧
        (matchLevels side id price r levels).remaining +
          tradedQty (matchLevels side id price r levels).trades = r := by
  induction levels with
  | nil => intro r h0 _; simp [matchLevels_nil, tradedQty_nil, h0]
  | cons lv rest ih =>
    intro r h0 h1
    obtain ⟨bp, q⟩ := lv
    have hq : ∀ o ∈ q, 0 < o.quantity := fun o ho =>
      hpos o (by simp [flatten]; exact Or.inl ho)
    have hrest : ∀ o ∈ flatten rest, 0 < o.quantity := fun o ho =>
      hpos o (by simp only [flatten, List.flatMap_cons, List.mem_append]; exact Or.inr ho)
    obtain ⟨f1, f2⟩ := fillQueue_conservation side id bp q hq r h0 h1
    have f3 := fillQueue_remaining_le side id bp q hq r h0 h1
    by_cases hr : 0 < r
    · cases hn : noDeal side price bp
      · by_cases he : (fillQueue side id bp r q).queue = []
        · rw [matchLevels_erase side id price r bp q rest hr hn he]
          obtain ⟨i1, i2, i3⟩ := ih hrest (fillQueue side id bp r q).remaining f1 (by omega)
          refine ⟨i1, by simp only; omega, ?_⟩
          simp only [tradedQty_append]
          omega
        · rw [matchLevels_keep side id price r bp q rest hr hn he]
          exact ⟨f1, f3, f2⟩
      · rw [matchLevels_noDeal side id price r bp q rest hr hn]
        simp [tradedQty_nil, h0]
    · rw [matchLevels_stop side id price r _ hr]
      simp [tradedQty_nil, h0]

/-- C2. For a book whose resting orders all have positive quantity and a call
`match_order(id, price, quantity, side)` with `quantity > 0` (an `int`), the returned
remaining quantity `r` satisfies `0 ≤ r ≤ quantity`, and `r` plus the matched units of
all trades emitted by the call is `quantity`. -/
theorem match_order_conservation (book : OrderBook) (id : Int) (price : Price)
    (quantity : Int) (side : Side)
    (hpos : ∀ o ∈ flatten book.bids ++ flatten book.asks, 0 < o.quantity)
    (hq : 0 < quantity) (hint : isInt32 quantity) :
    0 ≤ (match_order book id price quantity side).2.1 ∧
      (match_order book id price quantity side).2.1 ≤ quantity ∧
      (match_order book id price quantity side).2.1 +
        tradedQty (match_order book id price quantity side).1 = quantity := by
  cases side
  · exact matchLevels_conservation Side.BUY id price book.asks
      (fun o ho => hpos o (List.mem_append_right _ ho)) quantity (le_of_lt hq) hint.2
  · exact matchLevels_conservation Side.SELL id price book.bids
      (fun o ho => hpos o (List.mem_append_left _ ho)) quantity (le_of_lt hq) hint.2

theorem match_order_mainBook :
    match_order mainBook 301 (Price.fin (211 / 2)) 120 Side.BUY =
      ([⟨100, Price.fin (211 / 2), 301, 101⟩], 20,
        { bids := [(Price.fin 104, [⟨201, Price.fin 104, 200, Side.BUY, 0⟩])]
          asks := [(Price.fin 106, [⟨102, Price.fin 106, 50, Side.SELL, 0⟩])] }) := by
  norm_num [mainBook, match_order, matchLevels_nil, matchLevels_noDeal, matchLevels_erase,
    matchLevels_keep, fillQueue_nil, fillQueue_pop, fillQueue_keep, wrap32, noDeal, mkTrade]

/-- Witness of C2: the aggressive BUY of `main`, 120 units against the book of the three
passive orders, trades 100 and returns 20. -/
theorem match_order_conservation_witness :
    (∀ o ∈ flatten mainBook.bids ++ flatten mainBook.asks, 0 < o.quantity) ∧
      (0 : Int) < 120 ∧ isInt32 120 ∧
      (match_order mainBook 301 (Price.fin (211 / 2)) 120 Side.BUY).2.1 = 20 ∧
      (0 ≤ (match_order mainBook 301 (Price.fin (211 / 2)) 120 Side.BUY).2.1 ∧
        (match_order mainBook 301 (Price.fin (211 / 2)) 120 Side.BUY).2.1 ≤ 120 ∧
        (match_order mainBook 301 (Price.fin (211 / 2)) 120 Side.BUY).2.1 +
          tradedQty (match_order mainBook 301 (Price.fin (211 / 2)) 120 Side.BUY).1 = 120) :=
  ⟨by simp [mainBook, flatten], by decide, by decide, by rw [match_order_mainBook],
    match_order_conservation mainBook 301 (Price.fin (211 / 2)) 120 Side.BUY
      (by simp [mainBook, flatten]) (by decide) (by decide)⟩

/-! ## The trades follow the priority order of the opposing side -/

theorem tagged_cons (bp : Price) (q : List Order) (rest : List Level) :
    tagged ((bp, q) :: rest) = q.map (fun o => (bp, o)) ++ tagged rest := by
  simp [tagged]

theorem flatten_eq_tagged (levels : List Level) :
    flatten levels = (tagged levels).map Prod.snd := by
  induction levels with
  | nil => rfl
  | cons lv rest ih =>
    obtain ⟨bp, q⟩ := lv
    rw [tagged_cons, List.map_append, ← ih]
    simp [flatten, Function.comp_def]

/-- The trades of the inner loop: the orders at the front of the queue, each filled for its
entire quantity, possibly followed by one last trade with the next order, after which
nothing is left to fill. -/
theorem fillQueue_trace (side : Side) (id : Int) (bp : Price) (q : List Order) :
    ∀ r : Int,
      (∃ pre, q = pre ++ (fillQueue side id bp r q).queue ∧
          (fillQueue side id bp r q).trades = pre.map (fun o => fullTrade side id (bp, o))) ∨
        (∃ pre o post t, q = pre ++ o :: post ∧
          (fillQueue side id bp r q).trades =
            pre.map (fun o => fullTrade side id (bp, o)) ++ [mkTrade side id bp t o] ∧
          ¬ 0 < (fillQueue side id bp r q).remaining) := by
  induction q with
  | nil => intro r; exact Or.inl ⟨[], by simp [fillQueue_nil]⟩
  | cons o rest ih =>
    intro r
    by_cases hr : 0 < r
    · by_cases hz : wrap32 (o.quantity - min r o.quantity) = 0
      · rw [fillQueue_pop side id bp r o rest hr hz]
        by_cases hfull : min r o.quantity = o.quantity
        · rcases ih (wrap32 (r - min r o.quantity)) with ⟨pre, h1, h2⟩ | ⟨pre, x, post, t, h1, h2, h3⟩
          · refine Or.inl ⟨o :: pre, ?_, ?_⟩
            · simp only [List.cons_append]; rw [← h1]
            · rw [hfull] at h2 ⊢
              simp only [List.map_cons, h2, fullTrade]
          · refine Or.inr ⟨o :: pre, x, post, t, ?_, ?_, h3⟩
            · simp only [List.cons_append]; rw [← h1]
            · rw [hfull] at h2 ⊢
              simp only [List.map_cons, h2, fullTrade, List.cons_append]
        · have hmin : min r o.quantity = r := by
            rcases le_total r o.quantity with h | h
            · exact min_eq_left h
            · exact absurd (min_eq_right h) hfull
          have hw : wrap32 (r - min r o.quantity) = 0 := by simp [hmin, wrap32]
          rw [hw, fillQueue_done side id bp 0 rest (lt_irrefl 0)]
          exact Or.inr ⟨[], o, rest, min r o.quantity, by simp, by simp, lt_irrefl 0⟩
      · rw [fillQueue_keep side id bp r o rest hr hz]
        exact Or.inr ⟨[], o, rest, min r o.quantity, by simp, by simp, lt_irrefl 0⟩
    · rw [fillQueue_stop side id bp r o rest hr]
      exact Or.inl ⟨[], by simp⟩

/-- The trades of the outer loop: the orders at the front of the opposing side in priority
order, each filled for its entire quantity at the key of its level, possibly followed by
one last trade with the next order, after which nothing is left to fill. -/
theorem matchLevels_trace (side : Side) (id : Int) (price : Price) (levels : List Level) :
    ∀ r : Int,
      (∃ pre post, tagged levels = pre ++ post ∧
          (matchLevels side id price r levels).trades = pre.map (fullTrade side id)) ∨
        (∃ pre x post t, tagged levels = pre ++ x :: post ∧
          (matchLevels side id price r levels).trades =
            pre.map (fullTrade side id) ++ [mkTrade side id x.1 t x.2] ∧
          ¬ 0 < (matchLevels side id price r levels).remaining) := by
  induction levels with
  | nil => intro r; exact Or.inl ⟨[], [], by simp [tagged], by simp [matchLevels_nil]⟩
  | cons lv rest ih =>
    intro r
    obtain ⟨bp, q⟩ := lv
    rw [tagged_cons]
    by_cases hr : 0 < r
    · cases hn : noDeal side price bp
      · by_cases he : (fillQueue side id bp r q).queue = []
        · rw [matchLevels_erase side id price r bp q rest hr hn he]
          rcases fillQueue_trace side id bp q r with ⟨pre, h1, h2⟩ | ⟨pre, o, post, t, h1, h2, h3⟩
          · rw [he, List.append_nil] at h1
            subst h1
            rcases ih (fillQueue side id bp r q).remaining with
              ⟨pre2, post2, g1, g2⟩ | ⟨pre2, x, post2, t, g1, g2, g3⟩
            · refine Or.inl ⟨q.map (fun o => (bp, o)) ++ pre2, post2, ?_, ?_⟩
              · rw [g1, List.append_assoc]
              · simp only [h2, g2, List.map_append, List.map_map, Function.comp_def]
            · refine Or.inr ⟨q.map (fun o => (bp, o)) ++ pre2, x, post2, t, ?_, ?_, g3⟩
              · rw [g1, List.append_assoc]
              · simp only [h2, g2, List.map_append, List.map_map, Function.comp_def,
                  List.append_assoc]
          · rw [matchLevels_stop side id price _ rest h3]
            refine Or.inr ⟨pre.map (fun o => (bp, o)), (bp, o),
              post.map (fun o => (bp, o)) ++ tagged rest, t, ?_, ?_, h3⟩
            · rw [h1]; simp
            · simp only [h2, List.append_nil, List.map_map, Function.comp_def]
        · rw [matchLevels_keep side id price r bp q rest hr hn he]
          rcases fillQueue_trace side id bp q r with ⟨pre, h1, h2⟩ | ⟨pre, o, post, t, h1, h2, h3⟩
          · refine Or.inl ⟨pre.map (fun o => (bp, o)),
              (fillQueue side id bp r q).queue.map (fun o => (bp, o)) ++ tagged rest, ?_, ?_⟩
            · conv_lhs => rw [h1]
              simp
            · simp only [h2, List.map_map, Function.comp_def]
          · refine Or.inr ⟨pre.map (fun o => (bp, o)), (bp, o),
              post.map (fun o => (bp, o)) ++ tagged rest, t, ?_, ?_, h3⟩
            · rw [h1]; simp
            · simp only [h2, List.map_map, Function.comp_def]
      · rw [matchLevels_noDeal side id price r bp q rest hr hn]
        exact Or.inl ⟨[], _, (List.nil_append _).symm, by simp⟩
    · rw [matchLevels_stop side id price r _ hr]
      exact Or.inl ⟨[], _, (List.nil_append _).symm, by simp⟩

theorem mkTrade_restingId (side : Side) (id : Int) (bp : Price) (t : Int) (o : Order) :
    (mkTrade side id bp t o).restingId side = o.id := by
  cases side <;> rfl

theorem mkTrade_price (side : Side) (id : Int) (bp : Price) (t : Int) (o : Order) :
    (mkTrade side id bp t o).price = bp := by
  cases side <;> rfl

theorem match_order_trades (book : OrderBook) (id : Int) (price : Price) (quantity : Int)
    (side : Side) :
    (match_order book id price quantity side).1 =
      (matchLevels side id price quantity (opposing side book)).trades := by
  cases side <;> rfl

theorem match_order_remaining (book : OrderBook) (id : Int) (price : Price) (quantity : Int)
    (side : Side) :
    (match_order book id price quantity side).2.1 =
      (matchLevels side id price quantity (opposing side book)).remaining := by
  cases side <;> rfl

theorem match_order_opposing (book : OrderBook) (id : Int) (price : Price) (quantity : Int)
    (side : Side) :
    opposing side (match_order book id price quantity side).2.2 =
      (matchLevels side id price quantity (opposing side book)).levels := by
  cases side <;> rfl

theorem match_order_sameSide (book : OrderBook) (id : Int) (price : Price) (quantity : Int)
    (side : Side) :
    sameSide side (match_order book id price quantity side).2.2 = sameSide side book := by
  cases side <;> rfl

theorem matchLevels_priority (side : Side) (id : Int) (price : Price) (levels : List Level)
    (r : Int) :
    (matchLevels side id price r levels).trades.map (Trade.restingId side) <+:
        (flatten levels).map Order.id ∧
      (matchLevels side id price r levels).trades.dropLast.map Trade.qty <+:
        (flatten levels).map Order.quantity := by
  rw [flatten_eq_tagged]
  rcases matchLevels_trace side id price levels r with
    ⟨pre, post, h1, h2⟩ | ⟨pre, x, post, t, h1, h2, _⟩
  · rw [h1, h2]
    constructor
    · simp [fullTrade, mkTrade_restingId, Function.comp_def]
    · rw [List.map_dropLast]
      refine List.IsPrefix.trans (List.dropLast_prefix _) ?_
      simp [fullTrade, mkTrade_qty, Function.comp_def]
  · rw [h1, h2]
    constructor
    · simp [fullTrade, mkTrade_restingId, Function.comp_def]
    · rw [List.dropLast_concat]
      simp [fullTrade, mkTrade_qty, Function.comp_def]

/-- C3. Price-time priority: the resting-order ids named on the trades of a `match_order`
call, in the order emitted, are a leading segment of the ids of the opposing side
flattened in priority order (levels in iteration order, each queue front first), and the
matched units of every trade but the last are the entire quantities of the resting orders
at the same positions; so no resting order trades while an order ahead of it still has
quantity left. -/
theorem price_time_priority (book : OrderBook) (id : Int) (price : Price) (quantity : Int)
    (side : Side) :
    (match_order book id price quantity side).1.map (Trade.restingId side) <+:
        (flatten (opposing side book)).map Order.id ∧
      (match_order book id price quantity side).1.dropLast.map Trade.qty <+:
        (flatten (opposing side book)).map Order.quantity := by
  rw [match_order_trades]
  exact matchLevels_priority side id price (opposing side book) quantity

theorem match_order_deepBook :
    match_order deepBook 30 (Price.fin 101) 18 Side.BUY =
      ([⟨10, Price.fin 100, 30, 11⟩, ⟨5, Price.fin 100, 30, 12⟩, ⟨3, Price.fin 101, 30, 13⟩], 0,
        { bids := [(Price.fin 99, [⟨20, Price.fin 99, 8, Side.BUY, 0⟩])]
          asks := [(Price.fin 101, [⟨13, Price.fin 101, 4, Side.SELL, 2⟩])] }) := by
  norm_num [deepBook, match_order, matchLevels_nil, matchLevels_stop, matchLevels_noDeal,
    matchLevels_erase, matchLevels_keep, fillQueue_nil, fillQueue_pop, fillQueue_keep, wrap32,
    noDeal, mkTrade]

/-- Instance of C3: a BUY of 18 units at 101 against asks `100: [10, 5]`, `101: [7]` trades
with the orders 11, 12, 13 in that order, the first two for their entire quantity. -/
theorem price_time_priority_witness :
    (match_order deepBook 30 (Price.fin 101) 18 Side.BUY).1.map (Trade.restingId Side.BUY) = [11, 12, 13] ∧
      (match_order deepBook 30 (Price.fin 101) 18 Side.BUY).1.dropLast.map Trade.qty = [10, 5] ∧
      (flatten (opposing Side.BUY deepBook)).map Order.id = [11, 12, 13] ∧
      (flatten (opposing Side.BUY deepBook)).map Order.quantity = [10, 5, 7] ∧
      ((match_order deepBook 30 (Price.fin 101) 18 Side.BUY).1.map (Trade.restingId Side.BUY) <+:
          (flatten (opposing Side.BUY deepBook)).map Order.id ∧
        (match_order deepBook 30 (Price.fin 101) 18 Side.BUY).1.dropLast.map Trade.qty <+:
          (flatten (opposing Side.BUY deepBook)).map Order.quantity) :=
  ⟨by rw [match_order_deepBook]; rfl, by rw [match_order_deepBook]; rfl,
    by simp [deepBook, opposing, flatten], by simp [deepBook, opposing, flatten],
    price_time_priority deepBook 30 (Price.fin 101) 18 Side.BUY⟩

/-! ## Crossing test and trade price -/

/-- Away from NaN the break test of the code is the negation of the crossing test. -/
theorem noDeal_eq_false_iff (side : Side) (price bp : Price) (hp : price ≠ Price.nan)
    (hb : bp ≠ Price.nan) : noDeal side price bp = false ↔ crosses side price bp := by
  cases side
  · simp only [noDeal, crosses, decide_eq_false_iff_not, ge_iff_le]
    exact (Price.le_iff_not_lt hb hp).symm
  · simp only [noDeal, crosses, decide_eq_false_iff_not, gt_iff_lt]
    exact (Price.le_iff_not_lt hp hb).symm

/-- A level that satisfies the crossing test is not skipped by the break test, NaN or
not. -/
theorem noDeal_false_of_crosses (side : Side) (price bp : Price)
    (h : crosses side price bp) : noDeal side price bp = false := by
  cases side
  · simp only [noDeal, crosses, decide_eq_false_iff_not, ge_iff_le] at h ⊢
    exact Price.not_lt_of_le h
  · simp only [noDeal, crosses, decide_eq_false_iff_not, gt_iff_lt] at h ⊢
    exact Price.not_lt_of_le h

theorem not_crosses_of_noDeal (side : Side) (price bp : Price)
    (h : noDeal side price bp = true) : ¬ crosses side price bp := by
  intro hc
  rw [noDeal_false_of_crosses side price bp hc] at h
  exact absurd h (by decide)

theorem fillQueue_trades_price (side : Side) (id : Int) (bp : Price) (q : List Order) :
    ∀ r : Int, ∀ t ∈ (fillQueue side id bp r q).trades, t.price = bp := by
  intro r t ht
  rcases fillQueue_trace side id bp q r with ⟨pre, _, h2⟩ | ⟨pre, o, post, u, _, h2, _⟩
  · rw [h2] at ht
    obtain ⟨o, _, rfl⟩ := List.mem_map.mp ht
    exact mkTrade_price _ _ _ _ _
  · rw [h2] at ht
    rcases List.mem_append.mp ht with h | h
    · obtain ⟨o, _, rfl⟩ := List.mem_map.mp h
      exact mkTrade_price _ _ _ _ _
    · rw [List.mem_singleton.mp h]
      exact mkTrade_price _ _ _ _ _

/-- Every trade is made at the key of a level of the opposing map for which the break test
of the code is false. -/
theorem matchLevels_trades_noDeal (side : Side) (id : Int) (price : Price)
    (levels : List Level) :
    ∀ r : Int, ∀ t ∈ (matchLevels side id price r levels).trades,
      t.price ∈ keys levels ∧ noDeal side price t.price = false := by
  induction levels with
  | nil => intro r t ht; simp [matchLevels_nil] at ht
  | cons lv rest ih =>
    intro r t ht
    obtain ⟨bp, q⟩ := lv
    by_cases hr : 0 < r
    · cases hn : noDeal side price bp
      · by_cases he : (fillQueue side id bp r q).queue = []
        · rw [matchLevels_erase side id price r bp q rest hr hn he] at ht
          rcases List.mem_append.mp ht with h | h
          · rw [fillQueue_trades_price side id bp q r t h]
            exact ⟨by simp [keys], hn⟩
          · exact ⟨by simp only [keys, List.map_cons]
                      exact List.mem_cons_of_mem _ (ih _ t h).1, (ih _ t h).2⟩
        · rw [matchLevels_keep side id price r bp q rest hr hn he] at ht
          rw [fillQueue_trades_price side id bp q r t ht]
          exact ⟨by simp [keys], hn⟩
      · rw [matchLevels_noDeal side id price r bp q rest hr hn] at ht
        simp at ht
    · rw [matchLevels_stop side id price r _ hr] at ht
      simp at ht

theorem matchLevels_trades_keys (side : Side) (id : Int) (price : Price)
    (levels : List Level) (r : Int) :
    (matchLevels side id price r levels).trades.map (fun t => (t.price, t.restingId side)) <+:
      (tagged levels).map (fun x => (x.1, x.2.id)) := by
  rcases matchLevels_trace side id price levels r with
    ⟨pre, post, h1, h2⟩ | ⟨pre, x, post, t, h1, h2, _⟩
  · rw [h1, h2]
    simp [fullTrade, mkTrade_restingId, mkTrade_price, Function.comp_def]
  · rw [h1, h2]
    simp [fullTrade, mkTrade_restingId, mkTrade_price, Function.comp_def]

/-- With an opposing map that is empty or whose first level meets the break test, the outer
loop ends at once: no trade, nothing consumed. -/
theorem matchLevels_break (side : Side) (id : Int) (price : Price) (levels : List Level)
    (r : Int) (h : ∀ lv ∈ levels.head?, noDeal side price lv.1 = true) :
    matchLevels side id price r levels = ⟨[], r, levels⟩ := by
  cases levels with
  | nil => rw [matchLevels_nil]
  | cons lv rest =>
    obtain ⟨bp, q⟩ := lv
    by_cases hr : 0 < r
    · rw [matchLevels_noDeal side id price r bp q rest hr (h (bp, q) (by simp))]
    · rw [matchLevels_stop side id price r _ hr]

/-- Away from NaN, a first level that fails the crossing test meets the break test. -/
theorem head_noDeal_of_not_crosses (side : Side) (price : Price) (levels : List Level)
    (hp : price ≠ Price.nan) (hk : ∀ lv ∈ levels.head?, lv.1 ≠ Price.nan)
    (h : ∀ lv ∈ levels.head?, ¬ crosses side price lv.1) :
    ∀ lv ∈ levels.head?, noDeal side price lv.1 = true := by
  intro lv hlv
  cases hn : noDeal side price lv.1
  · exact absurd ((noDeal_eq_false_iff side price lv.1 hp (hk lv hlv)).mp hn) (h lv hlv)
  · rfl

theorem head_mem_keys (levels : List Level) : ∀ lv ∈ levels.head?, lv.1 ∈ keys levels := by
  intro lv hlv
  cases levels with
  | nil => simp at hlv
  | cons l rest =>
    simp only [List.head?_cons, Option.mem_def, Option.some.injEq] at hlv
    rw [← hlv]
    simp [keys]

/-- C4, as stated, fails for a NaN price: `price < best_price` is then false at every
level, so a BUY at NaN against asks `100: [10, 5]`, `101: [7]` trades at 100 and 101,
prices that do not satisfy `p ≤ price`, and it trades although the best level fails the
crossing test. -/
theorem trade_price_and_crossing_test_counterexample :
    (match_order deepBook 30 Price.nan 18 Side.BUY).1 =
        [⟨10, Price.fin 100, 30, 11⟩, ⟨5, Price.fin 100, 30, 12⟩, ⟨3, Price.fin 101, 30, 13⟩] ∧
      ¬ (∀ t ∈ (match_order deepBook 30 Price.nan 18 Side.BUY).1,
          crosses Side.BUY Price.nan t.price) ∧
      ¬ ((∀ lv ∈ (opposing Side.BUY deepBook).head?, ¬ crosses Side.BUY Price.nan lv.1) →
          (match_order deepBook 30 Price.nan 18 Side.BUY).1 = []) := by
  have h : (match_order deepBook 30 Price.nan 18 Side.BUY).1 =
      [⟨10, Price.fin 100, 30, 11⟩, ⟨5, Price.fin 100, 30, 12⟩, ⟨3, Price.fin 101, 30, 13⟩] := by
    norm_num [deepBook, match_order, matchLevels_nil, matchLevels_stop, matchLevels_noDeal,
      matchLevels_erase, matchLevels_keep, fillQueue_nil, fillQueue_pop, fillQueue_keep, wrap32,
      noDeal, mkTrade]
  rw [h]
  refine ⟨rfl, ?_, ?_⟩
  · intro hall
    have h1 := hall _ (List.mem_cons_self _ _)
    simp [crosses] at h1
  · intro himp
    have h1 := himp (by simp [crosses, deepBook, opposing])
    simp at h1

/-- C4, amended. Every trade emitted by `match_order` carries the key of the level of the
resting order it consumed: the (price, resting id) pairs of the trades are a leading
segment of the (level key, order id) pairs of the opposing side in priority order. A level
is traded at only when the break test of the code (`price < p` for a BUY, `price > p` for a
SELL) is false for its key `p`, and no trade is emitted when the opposing side is empty or
that test is true at its best level. When neither the incoming price nor a key of the
opposing side is NaN, this is the crossing test: every trade price satisfies `p ≤ price`
for a BUY and `p ≥ price` for a SELL, and when the opposing side is empty or its best level
fails the crossing test, no trade is emitted. -/
theorem trade_price_and_crossing_test (book : OrderBook) (id : Int) (price : Price)
    (quantity : Int) (side : Side) :
    ((match_order book id price quantity side).1.map (fun t => (t.price, t.restingId side)) <+:
        (tagged (opposing side book)).map (fun x => (x.1, x.2.id))) ∧
      (∀ t ∈ (match_order book id price quantity side).1, noDeal side price t.price = false) ∧
      ((∀ lv ∈ (opposing side book).head?, noDeal side price lv.1 = true) →
        (match_order book id price quantity side).1 = []) ∧
      (price ≠ Price.nan → (∀ k ∈ keys (opposing side book), k ≠ Price.nan) →
        (∀ t ∈ (match_order book id price quantity side).1, crosses side price t.price) ∧
          ((∀ lv ∈ (opposing side book).head?, ¬ crosses side price lv.1) →
            (match_order book id price quantity side).1 = [])) := by
  rw [match_order_trades]
  refine ⟨matchLevels_trades_keys side id price _ quantity,
    fun t ht => (matchLevels_trades_noDeal side id price _ quantity t ht).2,
    fun h => by rw [matchLevels_break side id price _ quantity h], ?_⟩
  intro hp hk
  constructor
  · intro t ht
    obtain ⟨h1, h2⟩ := matchLevels_trades_noDeal side id price _ quantity t ht
    exact (noDeal_eq_false_iff side price t.price hp (hk _ h1)).mp h2
  · intro h
    rw [matchLevels_break side id price _ quantity
      (head_noDeal_of_not_crosses side price _ hp
        (fun lv hlv => hk _ (head_mem_keys _ lv hlv)) h)]

/-- Instance of C4 amended: a BUY at 101 against the same asks trades at the level keys
100, 100, 101, all at or below its price. -/
theorem trade_price_and_crossing_test_witness :
    (match_order deepBook 30 (Price.fin 101) 18 Side.BUY).1.map
        (fun t => (t.price, t.restingId Side.BUY)) =
        [(Price.fin 100, 11), (Price.fin 100, 12), (Price.fin 101, 13)] ∧
      Price.fin 101 ≠ Price.nan ∧
      (∀ k ∈ keys (opposing Side.BUY deepBook), k ≠ Price.nan) ∧
      (∀ t ∈ (match_order deepBook 30 (Price.fin 101) 18 Side.BUY).1,
        crosses Side.BUY (Price.fin 101) t.price) :=
  ⟨by rw [match_order_deepBook]; rfl, by simp, by simp [deepBook, opposing, keys],
    ((trade_price_and_crossing_test deepBook 30 (Price.fin 101) 18 Side.BUY).2.2.2 (by simp)
      (by simp [deepBook, opposing, keys])).1⟩

/-! ## All crossable liquidity is consumed -/

theorem queueQty_nil : queueQty [] = 0 := rfl

theorem queueQty_cons (o : Order) (q : List Order) :
    queueQty (o :: q) = o.quantity + queueQty q := by
  simp [queueQty]

theorem queueQty_nonneg (q : List Order) (hpos : ∀ o ∈ q, 0 < o.quantity) :
    0 ≤ queueQty q := by
  induction q with
  | nil => simp [queueQty_nil]
  | cons o rest ih =>
    rw [queueQty_cons]
    have := hpos o (List.mem_cons_self _ _)
    have := ih (fun x hx => hpos x (List.mem_cons_of_mem _ hx))
    omega

theorem crossableQty_nil (side : Side) (price : Price) : crossableQty side price [] = 0 := rfl

theorem crossableQty_cons_cross (side : Side) (price bp : Price) (q : List Order)
    (rest : List Level) (h : crosses side price bp) :
    crossableQty side price ((bp, q) :: rest) = queueQty q + crossableQty side price rest := by
  simp [crossableQty, h]

theorem crossableQty_nonneg (side : Side) (price : Price) (levels : List Level)
    (hpos : ∀ o ∈ flatten levels, 0 < o.quantity) : 0 ≤ crossableQty side price levels := by
  induction levels with
  | nil => simp [crossableQty_nil]
  | cons lv rest ih =>
    obtain ⟨bp, q⟩ := lv
    have hq : ∀ o ∈ q, 0 < o.quantity := fun o ho =>
      hpos o (by simp only [flatten, List.flatMap_cons, List.mem_append]; exact Or.inl ho)
    have hrest : ∀ o ∈ flatten rest, 0 < o.quantity := fun o ho =>
      hpos o (by simp only [flatten, List.flatMap_cons, List.mem_append]; exact Or.inr ho)
    by_cases h : crosses side price bp
    · rw [crossableQty_cons_cross side price bp q rest h]
      have := queueQty_nonneg q hq
      have := ih hrest
      omega
    · have : crossableQty side price ((bp, q) :: rest) = crossableQty side price rest := by
        simp [crossableQty, h]
      rw [this]; exact ih hrest

/-- On a map in iteration order whose first level fails the crossing test, no level
satisfies it. -/
theorem crossableQty_of_noDeal (side : Side) (price bp : Price) (q : List Order)
    (rest : List Level) (hs : (keys ((bp, q) :: rest)).Pairwise (oppBefore side))
    (hn : noDeal side price bp = true) : crossableQty side price ((bp, q) :: rest) = 0 := by
  have hall : ∀ lv ∈ (bp, q) :: rest, ¬ crosses side price lv.1 := by
    intro lv hlv hc
    have hk : noDeal side price lv.1 = true := by
      rcases List.mem_cons.mp hlv with h | h
      · rw [h]; exact hn
      · simp only [keys, List.map_cons, List.pairwise_cons] at hs
        exact noDeal_of_oppBefore side price bp lv.1 hn
          (hs.1 lv.1 (List.mem_map_of_mem Prod.fst h))
    exact not_crosses_of_noDeal side price lv.1 hk hc
  have : ((bp, q) :: rest).filter (fun lv => decide (crosses side price lv.1)) = [] := by
    rw [List.filter_eq_nil_iff]
    intro lv hlv
    simpa using hall lv hlv
  simp [crossableQty, this]

/-- The inner loop trades the smaller of the incoming quantity and the quantity of the
queue. -/
theorem fillQueue_traded (side : Side) (id : Int) (bp : Price) (q : List Order)
    (hpos : ∀ o ∈ q, 0 < o.quantity) :
    ∀ r : Int, 0 ≤ r → r < 2147483648 →
      tradedQty (fillQueue side id bp r q).trades = min r (queueQty q) := by
  induction q with
  | nil =>
    intro r h0 _
    rw [fillQueue_nil, queueQty_nil, tradedQty_nil, min_eq_right h0]
  | cons o rest ih =>
    intro r h0 h1
    have ho : 0 < o.quantity := hpos o (List.mem_cons_self _ _)
    have hrest := queueQty_nonneg rest (fun x hx => hpos x (List.mem_cons_of_mem _ hx))
    rw [queueQty_cons]
    by_cases hr : 0 < r
    · by_cases hz : wrap32 (o.quantity - min r o.quantity) = 0
      · rw [fillQueue_pop side id bp r o rest hr hz]
        have hmin2 : min r o.quantity ≤ r := min_le_left _ _
        have hmin1 : 0 < min r o.quantity := lt_min hr ho
        have hw : wrap32 (r - min r o.quantity) = r - min r o.quantity :=
          wrap32_of_isInt32 _ ⟨by omega, by omega⟩
        rw [hw]
        have := ih (fun x hx => hpos x (List.mem_cons_of_mem _ hx))
          (r - min r o.quantity) (by omega) (by omega)
        simp only [tradedQty_cons, mkTrade_qty, this]
        rcases le_total r o.quantity with h | h
        · rw [min_eq_left h, sub_self, min_eq_left hrest, min_eq_left (by omega)]
          omega
        · rw [min_eq_right h]
          rcases le_total (r - o.quantity) (queueQty rest) with g | g
          · rw [min_eq_left g, min_eq_left (by omega)]; omega
          · rw [min_eq_right g, min_eq_right (by omega)]
      · rw [fillQueue_keep side id bp r o rest hr hz]
        have hlt : r < o.quantity := by
          rcases lt_or_le r o.quantity with h | h
          · exact h
          · rw [min_eq_right h] at hz
            exact absurd (by simp [wrap32]) hz
        simp only [tradedQty_cons, tradedQty_nil, mkTrade_qty]
        rw [min_eq_left (le_of_lt hlt), min_eq_left (by omega)]
        omega
    · rw [fillQueue_stop side id bp r o rest hr, tradedQty_nil]
      have : r = 0 := by omega
      rw [this, min_eq_left (by omega)]

/-- Away from NaN, the outer loop trades the smaller of the incoming quantity and the
quantity resting on the levels that satisfy the crossing test. -/
theorem matchLevels_traded (side : Side) (id : Int) (price : Price) (levels : List Level)
    (hs : (keys levels).Pairwise (oppBefore side))
    (hpos : ∀ o ∈ flatten levels, 0 < o.quantity)
    (hp : price ≠ Price.nan) (hk : ∀ k ∈ keys levels, k ≠ Price.nan) :
    ∀ r : Int, 0 ≤ r → r < 2147483648 →
      tradedQty (matchLevels side id price r levels).trades =
        min r (crossableQty side price levels) := by
  induction levels with
  | nil =>
    intro r h0 _
    rw [matchLevels_nil, crossableQty_nil, tradedQty_nil, min_eq_right h0]
  | cons lv rest ih =>
    intro r h0 h1
    obtain ⟨bp, q⟩ := lv
    have hq : ∀ o ∈ q, 0 < o.quantity := fun o ho =>
      hpos o (by simp only [flatten, List.flatMap_cons, List.mem_append]; exact Or.inl ho)
    have hrest : ∀ o ∈ flatten rest, 0 < o.quantity := fun o ho =>
      hpos o (by simp only [flatten, List.flatMap_cons, List.mem_append]; exact Or.inr ho)
    have hs2 : (keys rest).Pairwise (oppBefore side) := by
      simp only [keys, List.map_cons, List.pairwise_cons] at hs
      exact hs.2
    have hL := crossableQty_nonneg side price _ hpos
    have hk2 : ∀ k ∈ keys rest, k ≠ Price.nan := fun k hkm =>
      hk k (by simp only [keys, List.map_cons]; exact List.mem_cons_of_mem _ hkm)
    by_cases hr : 0 < r
    · cases hn : noDeal side price bp
      · have hc := (noDeal_eq_false_iff side price bp hp (hk bp (by simp [keys]))).mp hn
        obtain ⟨f1, f2⟩ := fillQueue_conservation side id bp q hq r h0 h1
        have f3 := fillQueue_traded side id bp q hq r h0 h1
        have hLr := crossableQty_nonneg side price rest hrest
        have hQ := queueQty_nonneg q hq
        rw [crossableQty_cons_cross side price bp q rest hc]
        by_cases he : (fillQueue side id bp r q).queue = []
        · rw [matchLevels_erase side id price r bp q rest hr hn he, tradedQty_append,
            ih hs2 hrest hk2 (fillQueue side id bp r q).remaining f1 (by omega), f3]
          have hrem : (fillQueue side id bp r q).remaining = r - min r (queueQty q) := by omega
          rw [hrem]
          rcases le_total r (queueQty q) with h | h
          · rw [min_eq_left h, sub_self, min_eq_left hLr, min_eq_left (by omega)]
            omega
          · rw [min_eq_right h]
            rcases le_total (r - queueQty q) (crossableQty side price rest) with g | g
            · rw [min_eq_left g, min_eq_left (by omega)]; omega
            · rw [min_eq_right g, min_eq_right (by omega)]
        · rw [matchLevels_keep side id price r bp q rest hr hn he]
          have h0r := fillQueue_remaining_of_queue side id bp q r he
          have hle : r ≤ queueQty q := by
            rcases le_total r (queueQty q) with h | h
            · exact h
            · rw [min_eq_right h] at f3; omega
          simp only [f3]
          rw [min_eq_left hle, min_eq_left (by omega)]
      · rw [matchLevels_noDeal side id price r bp q rest hr hn,
          crossableQty_of_noDeal side price bp q rest hs hn, tradedQty_nil, min_eq_right h0]
    · rw [matchLevels_stop side id price r _ hr, tradedQty_nil]
      have : r = 0 := by omega
      rw [this, min_eq_left hL]

/-- C5, as stated, fails for a NaN price: a BUY of 120 units at NaN against the book of
`main` trades all 120 units, while no ask level satisfies the crossing test against NaN,
so that `L` is 0. -/
theorem crossable_liquidity_consumed_counterexample :
    (keys (opposing Side.BUY mainBook)).Pairwise (oppBefore Side.BUY) ∧
      (∀ o ∈ flatten mainBook.bids ++ flatten mainBook.asks, 0 < o.quantity) ∧
      (0 : Int) < 120 ∧ isInt32 120 ∧
      tradedQty (match_order mainBook 301 Price.nan 120 Side.BUY).1 = 120 ∧
      crossableQty Side.BUY Price.nan (opposing Side.BUY mainBook) = 0 ∧
      tradedQty (match_order mainBook 301 Price.nan 120 Side.BUY).1 ≠
        min 120 (crossableQty Side.BUY Price.nan (opposing Side.BUY mainBook)) := by
  have h1 : tradedQty (match_order mainBook 301 Price.nan 120 Side.BUY).1 = 120 := by
    norm_num [mainBook, match_order, matchLevels_nil, matchLevels_stop, matchLevels_noDeal,
      matchLevels_erase, matchLevels_keep, fillQueue_nil, fillQueue_pop, fillQueue_keep, wrap32,
      noDeal, mkTrade, tradedQty]
  have h2 : crossableQty Side.BUY Price.nan (opposing Side.BUY mainBook) = 0 := by
    simp [mainBook, opposing, crossableQty, crosses]
  refine ⟨by norm_num [mainBook, opposing, keys, oppBefore], by simp [mainBook, flatten],
    by decide, by decide, h1, h2, ?_⟩
  rw [h1, h2]
  decide

/-- C5, amended. For a book whose resting orders all have positive quantity and a
`match_order` call with `quantity > 0` (an `int`): when neither the incoming price nor a
key of the opposing side is NaN, the matched units of all trades add up to
`min(quantity, L)`, where `L` is the quantity resting on the opposing levels that satisfy
the crossing test against the incoming price; and if the returned remaining quantity is
`> 0`, no opposing level satisfying the crossing test is left in the book. The opposing
map is in its iteration order, as every `std::map` is. -/
theorem crossable_liquidity_consumed (book : OrderBook) (id : Int) (price : Price)
    (quantity : Int) (side : Side)
    (hs : (keys (opposing side book)).Pairwise (oppBefore side))
    (hpos : ∀ o ∈ flatten book.bids ++ flatten book.asks, 0 < o.quantity)
    (hq : 0 < quantity) (hint : isInt32 quantity) :
    (price ≠ Price.nan → (∀ k ∈ keys (opposing side book), k ≠ Price.nan) →
        tradedQty (match_order book id price quantity side).1 =
          min quantity (crossableQty side price (opposing side book))) ∧
      (0 < (match_order book id price quantity side).2.1 →
        ∀ lv ∈ opposing side (match_order book id price quantity side).2.2,
          ¬ crosses side price lv.1) := by
  have hpos2 : ∀ o ∈ flatten (opposing side book), 0 < o.quantity := by
    intro o ho
    cases side
    · exact hpos o (List.mem_append_right _ ho)
    · exact hpos o (List.mem_append_left _ ho)
  rw [match_order_trades, match_order_remaining, match_order_opposing]
  refine ⟨fun hp hk =>
    matchLevels_traded side id price _ hs hpos2 hp hk quantity (le_of_lt hq) hint.2, ?_⟩
  intro hrem lv hlv
  exact not_crosses_of_noDeal side price lv.1
    (matchLevels_blocked side id price _ quantity hs hrem lv.1
      (List.mem_map_of_mem Prod.fst hlv))

/-- Witness of C5 amended: the aggressive BUY of `main` finds 100 units at or below its
price and trades `min(120, 100)`; the level left, `106`, does not cross. -/
theorem crossable_liquidity_consumed_witness :
    (keys (opposing Side.BUY mainBook)).Pairwise (oppBefore Side.BUY) ∧
      (∀ o ∈ flatten mainBook.bids ++ flatten mainBook.asks, 0 < o.quantity) ∧
      (0 : Int) < 120 ∧ isInt32 120 ∧
      Price.fin (211 / 2) ≠ Price.nan ∧
      (∀ k ∈ keys (opposing Side.BUY mainBook), k ≠ Price.nan) ∧
      crossableQty Side.BUY (Price.fin (211 / 2)) (opposing Side.BUY mainBook) = 100 ∧
      tradedQty (match_order mainBook 301 (Price.fin (211 / 2)) 120 Side.BUY).1 =
        min 120 (crossableQty Side.BUY (Price.fin (211 / 2)) (opposing Side.BUY mainBook)) ∧
      (0 < (match_order mainBook 301 (Price.fin (211 / 2)) 120 Side.BUY).2.1 →
        ∀ lv ∈ opposing Side.BUY
            (match_order mainBook 301 (Price.fin (211 / 2)) 120 Side.BUY).2.2,
          ¬ crosses Side.BUY (Price.fin (211 / 2)) lv.1) := by
  have hs : (keys (opposing Side.BUY mainBook)).Pairwise (oppBefore Side.BUY) := by
    norm_num [mainBook, opposing, keys, oppBefore]
  have hpos : ∀ o ∈ flatten mainBook.bids ++ flatten mainBook.asks, 0 < o.quantity := by
    simp [mainBook, flatten]
  have hk : ∀ k ∈ keys (opposing Side.BUY mainBook), k ≠ Price.nan := by
    simp [mainBook, opposing, keys]
  have h := crossable_liquidity_consumed mainBook 301 (Price.fin (211 / 2)) 120 Side.BUY hs hpos
    (by decide) (by decide)
  exact ⟨hs, hpos, by decide, by decide, by simp, hk,
    by norm_num [mainBook, opposing, crossableQty, crosses, queueQty],
    h.1 (by simp) hk, h.2⟩

/-! ## No empty level and no dead order in a reachable book -/

theorem wrap32_isInt32 (x : Int) : isInt32 (wrap32 x) := by
  unfold isInt32 wrap32
  omega

theorem fillQueue_remaining_isInt32 (side : Side) (id : Int) (bp : Price) (q : List Order) :
    ∀ r : Int, isInt32 r → isInt32 (fillQueue side id bp r q).remaining := by
  induction q with
  | nil => intro r hr; rw [fillQueue_nil]; exact hr
  | cons o rest ih =>
    intro r hi
    by_cases hr : 0 < r
    · by_cases hz : wrap32 (o.quantity - min r o.quantity) = 0
      · rw [fillQueue_pop side id bp r o rest hr hz]
        exact ih _ (wrap32_isInt32 _)
      · rw [fillQueue_keep side id bp r o rest hr hz]
        show isInt32 0
        decide
    · rw [fillQueue_stop side id bp r o rest hr]
      exact hi

theorem matchLevels_remaining_isInt32 (side : Side) (id : Int) (price : Price)
    (levels : List Level) :
    ∀ r : Int, isInt32 r → isInt32 (matchLevels side id price r levels).remaining := by
  induction levels with
  | nil => intro r hr; rw [matchLevels_nil]; exact hr
  | cons lv rest ih =>
    intro r hi
    obtain ⟨bp, q⟩ := lv
    by_cases hr : 0 < r
    · cases hn : noDeal side price bp
      · by_cases he : (fillQueue side id bp r q).queue = []
        · rw [matchLevels_erase side id price r bp q rest hr hn he]
          exact ih _ (fillQueue_remaining_isInt32 side id bp q r hi)
        · rw [matchLevels_keep side id price r bp q rest hr hn he]
          exact fillQueue_remaining_isInt32 side id bp q r hi
      · rw [matchLevels_noDeal side id price r bp q rest hr hn]
        exact hi
    · rw [matchLevels_stop side id price r _ hr]
      exact hi

/-- The inner loop leaves only orders of positive quantity in the queue. -/
theorem fillQueue_good (side : Side) (id : Int) (bp : Price) (q : List Order)
    (hq : ∀ o ∈ q, 0 < o.quantity ∧ o.quantity < 2147483648) :
    ∀ r : Int, ∀ o ∈ (fillQueue side id bp r q).queue,
      0 < o.quantity ∧ o.quantity < 2147483648 := by
  induction q with
  | nil => intro r o ho; simp [fillQueue_nil] at ho
  | cons x rest ih =>
    intro r
    have hx := hq x (List.mem_cons_self _ _)
    have hrest : ∀ o ∈ rest, 0 < o.quantity ∧ o.quantity < 2147483648 :=
      fun o ho => hq o (List.mem_cons_of_mem _ ho)
    by_cases hr : 0 < r
    · by_cases hz : wrap32 (x.quantity - min r x.quantity) = 0
      · rw [fillQueue_pop side id bp r x rest hr hz]
        exact ih hrest _
      · rw [fillQueue_keep side id bp r x rest hr hz]
        intro o ho
        rcases List.mem_cons.mp ho with h | h
        · have hlt : r < x.quantity := by
            rcases lt_or_le r x.quantity with g | g
            · exact g
            · rw [min_eq_right g] at hz
              exact absurd (by simp [wrap32]) hz
          rw [h, min_eq_left (le_of_lt hlt)]
          have hw : wrap32 (x.quantity - r) = x.quantity - r :=
            wrap32_of_isInt32 _ ⟨by omega, by omega⟩
          simp only [hw]
          omega
        · exact hrest o h
    · rw [fillQueue_stop side id bp r x rest hr]
      exact hq

/-- The outer loop leaves no empty level and no dead order. -/
theorem matchLevels_good (side : Side) (id : Int) (price : Price) (levels : List Level)
    (hg : goodLevels levels) :
    ∀ r : Int, goodLevels (matchLevels side id price r levels).levels := by
  induction levels with
  | nil => intro r; rw [matchLevels_nil]; exact hg
  | cons lv rest ih =>
    intro r
    obtain ⟨bp, q⟩ := lv
    have hrest : goodLevels rest := fun l hl => hg l (List.mem_cons_of_mem _ hl)
    by_cases hr : 0 < r
    · cases hn : noDeal side price bp
      · by_cases he : (fillQueue side id bp r q).queue = []
        · rw [matchLevels_erase side id price r bp q rest hr hn he]
          exact ih hrest _
        · rw [matchLevels_keep side id price r bp q rest hr hn he]
          intro l hl
          rcases List.mem_cons.mp hl with h | h
          · rw [h]
            exact ⟨he, fillQueue_good side id bp q (hg (bp, q) (List.mem_cons_self _ _)).2 r⟩
          · exact hrest l h
      · rw [matchLevels_noDeal side id price r bp q rest hr hn]
        exact hg
    · rw [matchLevels_stop side id price r _ hr]
      exact hg

theorem pushBack_good (comp : Price → Price → Bool) (p : Price) (o : Order)
    (levels : List Level) (hg : goodLevels levels)
    (ho : 0 < o.quantity ∧ o.quantity < 2147483648) :
    goodLevels (pushBack comp p o levels) := by
  induction levels with
  | nil =>
    intro l hl
    simp only [pushBack, List.mem_singleton] at hl
    rw [hl]
    exact ⟨by simp, fun x hx => by rw [List.mem_singleton.mp hx]; exact ho⟩
  | cons lv rest ih =>
    obtain ⟨k, q⟩ := lv
    have hrest : goodLevels rest := fun l hl => hg l (List.mem_cons_of_mem _ hl)
    have hkq := hg (k, q) (List.mem_cons_self _ _)
    simp only [pushBack]
    split
    · intro l hl
      rcases List.mem_cons.mp hl with h | h
      · rw [h]; exact hkq
      · exact ih hrest l h
    · split
      · intro l hl
        rcases List.mem_cons.mp hl with h | h
        · rw [h]
          exact ⟨by simp, fun x hx => by rw [List.mem_singleton.mp hx]; exact ho⟩
        · exact hg l h
      · intro l hl
        rcases List.mem_cons.mp hl with h | h
        · rw [h]
          refine ⟨by simp, fun x hx => ?_⟩
          rcases List.mem_append.mp hx with g | g
          · exact hkq.2 x g
          · rw [List.mem_singleton.mp g]; exact ho
        · exact hrest l h

/-- One `add_order` call with an `int` quantity leaves no empty level and no dead order. -/
theorem add_order_good (book : OrderBook) (now id : Int) (price : Price) (quantity : Int)
    (side : Side) (hb : goodLevels book.bids) (ha : goodLevels book.asks)
    (hint : isInt32 quantity) :
    goodLevels (add_order book now id price quantity side).2.bids ∧
      goodLevels (add_order book now id price quantity side).2.asks := by
  cases side
  · have hm := matchLevels_good Side.BUY id price book.asks ha quantity
    have hi := matchLevels_remaining_isInt32 Side.BUY id price book.asks quantity hint
    simp only [add_order, match_order]
    split
    · rename_i hrem
      exact ⟨pushBack_good _ _ _ _ hb ⟨hrem, hi.2⟩, hm⟩
    · exact ⟨hb, hm⟩
  · have hm := matchLevels_good Side.SELL id price book.bids hb quantity
    have hi := matchLevels_remaining_isInt32 Side.SELL id price book.bids quantity hint
    simp only [add_order, match_order]
    split
    · rename_i hrem
      exact ⟨hm, pushBack_good _ _ _ _ ha ⟨hrem, hi.2⟩⟩
    · exact ⟨hm, ha⟩

theorem submitAll_good (calls : List Call) :
    ∀ book : OrderBook, goodLevels book.bids → goodLevels book.asks →
      (∀ c ∈ calls, isInt32 c.quantity) →
      goodLevels (submitAll book calls).bids ∧ goodLevels (submitAll book calls).asks := by
  induction calls with
  | nil => intro book hb ha _; exact ⟨hb, ha⟩
  | cons c cs ih =>
    intro book hb ha hint
    have h := add_order_good book c.now c.id c.price c.quantity c.side hb ha
      (hint c (List.mem_cons_self _ _))
    exact ih _ h.1 h.2 (fun x hx => hint x (List.mem_cons_of_mem _ hx))

theorem goodLevels_nil : goodLevels [] := by
  intro lv hlv; simp at hlv

theorem queueQty_pos (q : List Order) (hne : q ≠ []) (hpos : ∀ o ∈ q, 0 < o.quantity) :
    0 < queueQty q := by
  cases q with
  | nil => exact absurd rfl hne
  | cons o rest =>
    rw [queueQty_cons]
    have := hpos o (List.mem_cons_self _ _)
    have := queueQty_nonneg rest (fun x hx => hpos x (List.mem_cons_of_mem _ hx))
    omega

/-- The 32-bit running total of `print_book` is the exact sum as long as the exact sum fits
an `int`. -/
theorem foldl_volume (q : List Order) (hpos : ∀ o ∈ q, 0 < o.quantity) :
    ∀ acc : Int, 0 ≤ acc → acc + queueQty q < 2147483648 →
      q.foldl (fun total o => wrap32 (total + o.quantity)) acc = acc + queueQty q := by
  induction q with
  | nil => intro acc _ _; simp [queueQty_nil]
  | cons o rest ih =>
    intro acc h0 h1
    have ho := hpos o (List.mem_cons_self _ _)
    have hrest := queueQty_nonneg rest (fun x hx => hpos x (List.mem_cons_of_mem _ hx))
    rw [queueQty_cons] at h1
    have hw : wrap32 (acc + o.quantity) = acc + o.quantity :=
      wrap32_of_isInt32 _ ⟨by omega, by omega⟩
    rw [List.foldl_cons, hw, ih (fun x hx => hpos x (List.mem_cons_of_mem _ hx))
      (acc + o.quantity) (by omega) (by omega), queueQty_cons]
    omega

theorem levelVolume_eq (q : List Order) (hpos : ∀ o ∈ q, 0 < o.quantity)
    (h : queueQty q < 2147483648) : levelVolume q = queueQty q := by
  have := foldl_volume q hpos 0 (le_refl 0) (by omega)
  simpa [levelVolume] using this

theorem submitAll_overflowCalls :
    submitAll OrderBook.empty overflowCalls =
      { bids := []
        asks := [(Price.fin 100, [⟨1, Price.fin 100, 1073741824, Side.SELL, 0⟩, ⟨2, Price.fin 100, 1073741824, Side.SELL, 0⟩,
          ⟨3, Price.fin 100, 1073741824, Side.SELL, 0⟩, ⟨4, Price.fin 100, 1073741824, Side.SELL, 0⟩])] } := by
  norm_num [overflowCalls, submitAll, add_order, match_order, matchLevels_nil, pushBack,
    OrderBook.empty, lessCmp]

theorem submitAll_mixedCalls :
    submitAll OrderBook.empty mixedCalls =
      { bids := [], asks := [(Price.fin 100, [⟨1, Price.fin 100, 6, Side.SELL, 0⟩])] } := by
  norm_num [mixedCalls, submitAll, add_order, match_order, matchLevels_nil, matchLevels_stop,
    matchLevels_noDeal, matchLevels_erase, matchLevels_keep, fillQueue_nil, fillQueue_pop,
    fillQueue_keep, pushBack, OrderBook.empty, wrap32, noDeal, lessCmp, greaterCmp, mkTrade]

/-- C6. The code at the failing input: after four SELL orders of `2^30` units at price 100
(each quantity an `int`), the book holds one ask level with four orders and an aggregate
quantity of `2^32`, as the claim requires, but the `int total` of `print_book` overflows
and the level is reported with volume 0. -/
theorem print_book_volume_overflow :
    (∀ c ∈ overflowCalls, isInt32 c.quantity) ∧
      (∀ lv ∈ (submitAll OrderBook.empty overflowCalls).asks,
        lv.2 ≠ [] ∧ queueQty lv.2 = 4294967296) ∧
      (print_book (submitAll OrderBook.empty overflowCalls)).asks = [(Price.fin 100, 0)] := by
  refine ⟨?_, ?_, ?_⟩
  · intro c hc
    simp only [overflowCalls, List.mem_cons, List.mem_singleton, List.not_mem_nil,
      or_false] at hc
    rcases hc with h | h | h | h <;> (rw [h]; decide)
  · rw [submitAll_overflowCalls]
    simp [queueQty]
  · rw [submitAll_overflowCalls]
    simp [print_book, levelVolume, wrap32]

/-- In every book reached from the empty book by `add_order` calls (with `int` quantities),
every level on either side has a non-empty queue and a strictly positive aggregate
quantity, and the total `print_book` computes for a level is that aggregate whenever the
aggregate fits an `int`. -/
theorem reachable_levels_positive (calls : List Call)
    (hint : ∀ c ∈ calls, isInt32 c.quantity) :
    ∀ lv ∈ (submitAll OrderBook.empty calls).bids ++ (submitAll OrderBook.empty calls).asks,
      lv.2 ≠ [] ∧ 0 < queueQty lv.2 ∧
        (queueQty lv.2 < 2147483648 → levelVolume lv.2 = queueQty lv.2) := by
  obtain ⟨hb, ha⟩ := submitAll_good calls OrderBook.empty goodLevels_nil goodLevels_nil hint
  have hall : ∀ lv ∈ (submitAll OrderBook.empty calls).bids ++
      (submitAll OrderBook.empty calls).asks,
      lv.2 ≠ [] ∧ ∀ o ∈ lv.2, 0 < o.quantity := by
    intro lv hlv
    rcases List.mem_append.mp hlv with h | h
    · exact ⟨(hb lv h).1, fun o ho => ((hb lv h).2 o ho).1⟩
    · exact ⟨(ha lv h).1, fun o ho => ((ha lv h).2 o ho).1⟩
  intro lv hlv
  exact ⟨(hall lv hlv).1, queueQty_pos lv.2 (hall lv hlv).1 (hall lv hlv).2,
    levelVolume_eq lv.2 (hall lv hlv).2⟩

/-- C7. In every book reached from the empty book by `add_order` calls, calls with zero or
negative quantity included (every quantity an `int`), every order held in a queue on
either side has quantity strictly greater than 0. -/
theorem no_dead_resting_orders (calls : List Call) (hint : ∀ c ∈ calls, isInt32 c.quantity)
    (o : Order)
    (ho : o ∈ flatten (submitAll OrderBook.empty calls).bids ++
      flatten (submitAll OrderBook.empty calls).asks) : 0 < o.quantity := by
  obtain ⟨hb, ha⟩ := submitAll_good calls OrderBook.empty goodLevels_nil goodLevels_nil hint
  simp only [flatten, List.mem_append, List.mem_flatMap] at ho
  rcases ho with ⟨lv, h1, h2⟩ | ⟨lv, h1, h2⟩
  · exact ((hb lv h1).2 o h2).1
  · exact ((ha lv h1).2 o h2).1

/-- Witness of C7: after a SELL of 10, a BUY of -5, a BUY of 0 and a BUY of 4 at the same
price, the one order left holds 6 units. -/
theorem no_dead_resting_orders_witness :
    (∀ c ∈ mixedCalls, isInt32 c.quantity) ∧
      (⟨1, Price.fin 100, 6, Side.SELL, 0⟩ : Order) ∈
        flatten (submitAll OrderBook.empty mixedCalls).bids ++
          flatten (submitAll OrderBook.empty mixedCalls).asks ∧
      (0 : Int) < (⟨1, Price.fin 100, 6, Side.SELL, 0⟩ : Order).quantity := by
  have hint : ∀ c ∈ mixedCalls, isInt32 c.quantity := by
    intro c hc
    simp only [mixedCalls, List.mem_cons, List.mem_singleton, List.not_mem_nil,
      or_false] at hc
    rcases hc with h | h | h | h <;> (rw [h]; decide)
  have hmem : (⟨1, Price.fin 100, 6, Side.SELL, 0⟩ : Order) ∈
      flatten (submitAll OrderBook.empty mixedCalls).bids ++
        flatten (submitAll OrderBook.empty mixedCalls).asks := by
    rw [submitAll_mixedCalls]
    simp [flatten]
  exact ⟨hint, hmem, no_dead_resting_orders mixedCalls hint _ hmem⟩

/-! ## Calls with a non-positive price or quantity -/

/-- C8, as stated, fails: a SELL of 5 units at the non-positive price `-1` against the book
of `main` is not rejected; it trades with the bid at 104 and changes the book. -/
theorem invalid_input_counterexample :
    Price.fin (-1) ≤ Price.fin 0 ∧
      (add_order mainBook 0 7 (Price.fin (-1)) 5 Side.SELL).1 = [⟨5, Price.fin 104, 201, 7⟩] ∧
      (add_order mainBook 0 7 (Price.fin (-1)) 5 Side.SELL).2.bids =
        [(Price.fin 104, [⟨201, Price.fin 104, 195, Side.BUY, 0⟩])] ∧
      (add_order mainBook 0 7 (Price.fin (-1)) 5 Side.SELL).2 ≠ mainBook := by
  have h : add_order mainBook 0 7 (Price.fin (-1)) 5 Side.SELL =
      ([⟨5, Price.fin 104, 201, 7⟩],
        { bids := [(Price.fin 104, [⟨201, Price.fin 104, 195, Side.BUY, 0⟩])]
          asks := [(Price.fin (211 / 2), [⟨101, Price.fin (211 / 2), 100, Side.SELL, 0⟩]),
            (Price.fin 106, [⟨102, Price.fin 106, 50, Side.SELL, 0⟩])] }) := by
    norm_num [mainBook, add_order, match_order, matchLevels_nil, matchLevels_stop,
      matchLevels_noDeal, matchLevels_erase, matchLevels_keep, fillQueue_nil, fillQueue_pop,
      fillQueue_keep, wrap32, noDeal, mkTrade]
  rw [h]
  refine ⟨by norm_num, rfl, rfl, ?_⟩
  simp [mainBook]

/-- C8, amended. `add_order` validates nothing and has no result to report a condition
with. A call whose quantity is zero or negative, whatever its price, emits no trade and
leaves both sides of the book unchanged. -/
theorem nonpositive_quantity_unchanged (book : OrderBook) (now id : Int) (price : Price)
    (quantity : Int) (side : Side) (hq : quantity ≤ 0) :
    add_order book now id price quantity side = ([], book) := by
  have hr : ¬ 0 < quantity := not_lt.mpr hq
  cases side <;> simp [add_order, match_order, matchLevels_stop _ _ _ _ _ hr, hr]

/-- Witness of C8 amended: a BUY of -5 units at price -1 leaves the book of `main` as it
is. -/
theorem nonpositive_quantity_unchanged_witness :
    (-5 : Int) ≤ 0 ∧ add_order mainBook 0 7 (Price.fin (-1)) (-5) Side.BUY = ([], mainBook) :=
  ⟨by decide, nonpositive_quantity_unchanged mainBook 0 7 (Price.fin (-1)) (-5) Side.BUY (by decide)⟩

/-! ## The order of the lines of `print_book` -/

theorem mainBook_wellFormed : mainBook.wellFormed := by
  norm_num [OrderBook.wellFormed, mainBook, keys]

/-- C9, as stated, fails on the ask side: for the book of `main`, `print_book` lists the
ask levels as 106, 105.5, which is not ascending. -/
theorem snapshot_order_counterexample :
    mainBook.wellFormed ∧
      ((print_book mainBook).asks.map Prod.fst = [Price.fin 106, Price.fin (211 / 2)]) ∧
      ¬ ((print_book mainBook).asks.map Prod.fst).Pairwise (· < ·) := by
  refine ⟨mainBook_wellFormed, by simp [print_book, mainBook], ?_⟩
  norm_num [print_book, mainBook]

/-- C9, amended. For every book, `print_book` lists the bid levels in strictly descending
price order (best bid first) and the ask levels in strictly descending price order too
(highest ask first, the best ask last, next to the separator line). -/
theorem snapshot_order (book : OrderBook) (hw : book.wellFormed) :
    ((print_book book).bids.map Prod.fst).Pairwise (· > ·) ∧
      ((print_book book).asks.map Prod.fst).Pairwise (· > ·) := by
  obtain ⟨hasks, hbids⟩ := hw
  constructor
  · simpa [print_book, keys, Function.comp_def] using hbids
  · have : (print_book book).asks.map Prod.fst = (keys book.asks).reverse := by
      simp [print_book, keys, Function.comp_def, List.map_reverse]
    rw [this, List.pairwise_reverse]
    exact hasks

/-- Witness of C9 amended, on the book of `main`. -/
theorem snapshot_order_witness :
    mainBook.wellFormed ∧
      (((print_book mainBook).bids.map Prod.fst).Pairwise (· > ·) ∧
        ((print_book mainBook).asks.map Prod.fst).Pairwise (· > ·)) :=
  ⟨mainBook_wellFormed, snapshot_order mainBook mainBook_wellFormed⟩

/-! ## Resting the remainder -/

/-- On a map in iteration order, `m[price].push_back(o)` either appends `o` to the queue of
the level keyed `price`, or, when no level has that key, puts the new level `(price, [o])`
at its place in the order; nothing else moves. The comparator decides a strict order in
which `price` is comparable with every key that is not equal to it. -/
theorem pushBack_frame (comp : Price → Price → Bool) (R : Price → Price → Prop)
    (hcomp : ∀ a b, comp a b = true ↔ R a b) (htrans : ∀ a b c, R a b → R b c → R a c)
    (hirr : ∀ a, ¬ R a a)
    (p : Price) (o : Order) (levels : List Level) (hs : (keys levels).Pairwise R)
    (htri : ∀ k ∈ keys levels, ¬ R k p → ¬ R p k → k = p) :
    (∃ pre q post, levels = pre ++ (p, q) :: post ∧
        pushBack comp p o levels = pre ++ (p, q ++ [o]) :: post) ∨
      (p ∉ keys levels ∧ ∃ pre post, levels = pre ++ post ∧
        pushBack comp p o levels = pre ++ (p, [o]) :: post ∧
        (∀ k ∈ keys pre, R k p) ∧ ∀ k ∈ keys post, R p k) := by
  induction levels with
  | nil =>
    exact Or.inr ⟨by simp [keys], [], [], rfl, by simp [pushBack], by simp [keys],
      by simp [keys]⟩
  | cons lv rest ih =>
    obtain ⟨k0, q0⟩ := lv
    simp only [keys, List.map_cons, List.pairwise_cons] at hs
    have htri2 : ∀ k ∈ keys rest, ¬ R k p → ¬ R p k → k = p := fun k hk =>
      htri k (by simp only [keys, List.map_cons]; exact List.mem_cons_of_mem _ hk)
    simp only [pushBack]
    by_cases h1 : comp k0 p = true
    · have hR : R k0 p := (hcomp k0 p).mp h1
      have hne : p ≠ k0 := fun h => hirr p (by rw [h] at hR ⊢; exact hR)
      simp only [h1, if_true]
      rcases ih hs.2 htri2 with ⟨pre, q, post, e1, e2⟩ | ⟨hnot, pre, post, e1, e2, e3, e4⟩
      · exact Or.inl ⟨(k0, q0) :: pre, q, post, by rw [e1]; rfl, by rw [e2]; rfl⟩
      · refine Or.inr ⟨?_, (k0, q0) :: pre, post, by rw [e1]; rfl, by rw [e2]; rfl, ?_, e4⟩
        · simp only [keys, List.map_cons, List.mem_cons, not_or]
          exact ⟨hne, hnot⟩
        · intro k hk
          simp only [keys, List.map_cons, List.mem_cons] at hk
          rcases hk with hk | hk
          · rw [hk]; exact hR
          · exact e3 k hk
    · have hR1 : ¬ R k0 p := fun h => h1 ((hcomp k0 p).mpr h)
      simp only [h1]
      by_cases h2 : comp p k0 = true
      · have hR : R p k0 := (hcomp p k0).mp h2
        have hne : p ≠ k0 := fun h => hirr p (by rw [← h] at hR; exact hR)
        simp only [h2, if_true]
        refine Or.inr ⟨?_, [], (k0, q0) :: rest, rfl, rfl, by simp [keys], ?_⟩
        · simp only [keys, List.map_cons, List.mem_cons, not_or]
          exact ⟨hne, fun hmem => hR1 (hs.1 p hmem)⟩
        · intro k hk
          simp only [keys, List.map_cons, List.mem_cons] at hk
          rcases hk with hk | hk
          · rw [hk]; exact hR
          · exact htrans p k0 k hR (hs.1 k hk)
      · have hR2 : ¬ R p k0 := fun h => h2 ((hcomp p k0).mpr h)
        have heq : k0 = p := htri k0 (by simp [keys]) hR1 hR2
        simp only [h2]
        subst heq
        exact Or.inl ⟨[], q0, rest, rfl, rfl⟩

/-- Whatever the comparator and the price, NaN included, `m[price].push_back(o)` adds `o`
and nothing else: at the end of the queue of one existing level, or as a new level
`(price, [o])`; every other level and order keeps its place. -/
theorem pushBack_frame_any (comp : Price → Price → Bool) (p : Price) (o : Order)
    (levels : List Level) :
    (∃ pre k q post, levels = pre ++ (k, q) :: post ∧
        pushBack comp p o levels = pre ++ (k, q ++ [o]) :: post) ∨
      (∃ pre post, levels = pre ++ post ∧
        pushBack comp p o levels = pre ++ (p, [o]) :: post) := by
  induction levels with
  | nil => exact Or.inr ⟨[], [], rfl, by simp [pushBack]⟩
  | cons lv rest ih =>
    obtain ⟨k0, q0⟩ := lv
    simp only [pushBack]
    split
    · rcases ih with ⟨pre, k, q, post, e1, e2⟩ | ⟨pre, post, e1, e2⟩
      · exact Or.inl ⟨(k0, q0) :: pre, k, q, post, by rw [e1]; rfl, by rw [e2]; rfl⟩
      · exact Or.inr ⟨(k0, q0) :: pre, post, by rw [e1]; rfl, by rw [e2]; rfl⟩
    · split
      · exact Or.inr ⟨[], (k0, q0) :: rest, rfl, rfl⟩
      · exact Or.inl ⟨[], k0, q0, rest, rfl, rfl⟩

/-- The frame of `pushBack_frame` for the map of one side, for a price that is not NaN and
keys that are not NaN. -/
theorem pushBack_frame_side (side : Side) (p : Price) (o : Order) (levels : List Level)
    (hs : (keys levels).Pairwise (sameBefore side)) (hp : p ≠ Price.nan)
    (hk : ∀ k ∈ keys levels, k ≠ Price.nan) :
    (∃ pre q post, levels = pre ++ (p, q) :: post ∧
        pushBack (sameCmp side) p o levels = pre ++ (p, q ++ [o]) :: post) ∨
      (p ∉ keys levels ∧ ∃ pre post, levels = pre ++ post ∧
        pushBack (sameCmp side) p o levels = pre ++ (p, [o]) :: post ∧
        (∀ k ∈ keys pre, sameBefore side k p) ∧ ∀ k ∈ keys post, sameBefore side p k) := by
  cases side
  · exact pushBack_frame greaterCmp (· > ·) (fun a b => by simp [greaterCmp])
      (fun _ _ _ h1 h2 => Price.lt_of_lt_of_lt h2 h1) (fun a => Price.not_lt_self a) p o levels
      hs (fun k hkm h1 h2 => Price.eq_of_not_lt (hk k hkm) hp h2 h1)
  · exact pushBack_frame lessCmp (· < ·) (fun a b => by simp [lessCmp])
      (fun _ _ _ h1 h2 => Price.lt_of_lt_of_lt h1 h2) (fun a => Price.not_lt_self a) p o levels
      hs (fun k hkm h1 h2 => Price.eq_of_not_lt (hk k hkm) hp h1 h2)

theorem add_order_sameSide (book : OrderBook) (now id : Int) (price : Price)
    (quantity : Int) (side : Side) :
    sameSide side (add_order book now id price quantity side).2 =
      if 0 < (match_order book id price quantity side).2.1 then
        pushBack (sameCmp side) price
          ⟨id, price, (match_order book id price quantity side).2.1, side, now⟩
          (sameSide side book)
      else sameSide side book := by
  cases side
  · simp only [add_order]
    split <;> rfl
  · simp only [add_order]
    split <;> rfl

theorem add_order_bidOnlyBook :
    add_order bidOnlyBook 9 2 Price.nan 5 Side.BUY =
      ([], { bids := [(Price.fin 104, [⟨201, Price.fin 104, 200, Side.BUY, 0⟩,
          ⟨2, Price.nan, 5, Side.BUY, 9⟩])], asks := [] }) := by
  norm_num [bidOnlyBook, add_order, match_order, matchLevels_nil, pushBack, greaterCmp]

/-- C10, as stated, fails for a NaN price: `bids[price]` finds NaN equivalent to the key
104, so a BUY of 5 units at NaN on a book with the one bid level 104 is appended to the
queue of level 104; no level keyed by its price exists before or after. -/
theorem rest_remainder_counterexample :
    (keys (sameSide Side.BUY bidOnlyBook)).Pairwise (sameBefore Side.BUY) ∧
      (match_order bidOnlyBook 2 Price.nan 5 Side.BUY).2.1 = 5 ∧
      sameSide Side.BUY (add_order bidOnlyBook 9 2 Price.nan 5 Side.BUY).2 =
        [(Price.fin 104, [⟨201, Price.fin 104, 200, Side.BUY, 0⟩,
          ⟨2, Price.nan, 5, Side.BUY, 9⟩])] ∧
      ¬ ((∃ pre q post, sameSide Side.BUY bidOnlyBook = pre ++ (Price.nan, q) :: post ∧
            sameSide Side.BUY (add_order bidOnlyBook 9 2 Price.nan 5 Side.BUY).2 =
              pre ++ (Price.nan, q ++ [⟨2, Price.nan, 5, Side.BUY, 9⟩]) :: post) ∨
          (Price.nan ∉ keys (sameSide Side.BUY bidOnlyBook) ∧
            ∃ pre post, sameSide Side.BUY bidOnlyBook = pre ++ post ∧
              sameSide Side.BUY (add_order bidOnlyBook 9 2 Price.nan 5 Side.BUY).2 =
                pre ++ (Price.nan, [⟨2, Price.nan, 5, Side.BUY, 9⟩]) :: post ∧
              (∀ k ∈ keys pre, sameBefore Side.BUY k Price.nan) ∧
              ∀ k ∈ keys post, sameBefore Side.BUY Price.nan k)) := by
  refine ⟨by simp [bidOnlyBook, sameSide, keys], ?_, by rw [add_order_bidOnlyBook]; rfl, ?_⟩
  · norm_num [bidOnlyBook, match_order, matchLevels_nil]
  · rw [add_order_bidOnlyBook]
    rintro (⟨pre, q, post, h1, _⟩ | ⟨_, pre, post, _, h2, _⟩)
    · have hm : (Price.nan, q) ∈ sameSide Side.BUY bidOnlyBook := by rw [h1]; simp
      simp [bidOnlyBook, sameSide] at hm
    · have hm : (Price.nan, [(⟨2, Price.nan, 5, Side.BUY, 9⟩ : Order)]) ∈
          sameSide Side.BUY { bids := [(Price.fin 104, [⟨201, Price.fin 104, 200, Side.BUY, 0⟩,
            ⟨2, Price.nan, 5, Side.BUY, 9⟩])], asks := [] } := by rw [h2]; simp
      simp [sameSide] at hm

/-- C10, amended. Let `r` be the remaining quantity returned by matching in a call
`add_order(id, price, quantity, side)`. If `r > 0`, the same-side map afterwards is the
same-side map before with the one new order `(id, price, r, side)` added at the end of the
queue of one level, or as a new level `(price, [new order])`, every other level and every
pre-existing order unchanged and in the same position; when the price is not NaN and no
same-side level is keyed NaN, the queue is that of the level keyed `price`, and the new
level is created, at its place in the iteration order, exactly when that level is absent.
If `r ≤ 0` the same-side map is unchanged. -/
theorem rest_remainder (book : OrderBook) (now id : Int) (price : Price) (quantity : Int)
    (side : Side) :
    (0 < (match_order book id price quantity side).2.1 →
        (∃ pre k q post, sameSide side book = pre ++ (k, q) :: post ∧
            sameSide side (add_order book now id price quantity side).2 =
              pre ++ (k, q ++
                [⟨id, price, (match_order book id price quantity side).2.1, side, now⟩]) ::
                post) ∨
          (∃ pre post, sameSide side book = pre ++ post ∧
            sameSide side (add_order book now id price quantity side).2 =
              pre ++ (price,
                [⟨id, price, (match_order book id price quantity side).2.1, side, now⟩]) ::
                post)) ∧
      ((keys (sameSide side book)).Pairwise (sameBefore side) → price ≠ Price.nan →
        (∀ k ∈ keys (sameSide side book), k ≠ Price.nan) →
        0 < (match_order book id price quantity side).2.1 →
        (∃ pre q post, sameSide side book = pre ++ (price, q) :: post ∧
            sameSide side (add_order book now id price quantity side).2 =
              pre ++ (price, q ++
                [⟨id, price, (match_order book id price quantity side).2.1, side, now⟩]) ::
                post) ∨
          (price ∉ keys (sameSide side book) ∧ ∃ pre post, sameSide side book = pre ++ post ∧
            sameSide side (add_order book now id price quantity side).2 =
              pre ++ (price,
                [⟨id, price, (match_order book id price quantity side).2.1, side, now⟩]) ::
                post ∧
            (∀ k ∈ keys pre, sameBefore side k price) ∧
            ∀ k ∈ keys post, sameBefore side price k)) ∧
      ((match_order book id price quantity side).2.1 ≤ 0 →
        sameSide side (add_order book now id price quantity side).2 = sameSide side book) := by
  rw [add_order_sameSide]
  refine ⟨?_, ?_, ?_⟩
  · intro hr
    simp only [hr, if_true]
    exact pushBack_frame_any _ price _ _
  · intro hs hp hk hr
    simp only [hr, if_true]
    exact pushBack_frame_side side price _ _ hs hp hk
  · intro hr
    simp only [not_lt.mpr hr, if_false]

/-- Witness of C10 amended: the bid side of the book of `main` is in descending order and
holds no NaN key; the aggressive BUY of `main` rests 20 units in a new level in front of
the bid at 104. -/
theorem rest_remainder_witness :
    (keys (sameSide Side.BUY mainBook)).Pairwise (sameBefore Side.BUY) ∧
      Price.fin (211 / 2) ≠ Price.nan ∧
      (∀ k ∈ keys (sameSide Side.BUY mainBook), k ≠ Price.nan) ∧
      0 < (match_order mainBook 301 (Price.fin (211 / 2)) 120 Side.BUY).2.1 ∧
      sameSide Side.BUY (add_order mainBook 0 301 (Price.fin (211 / 2)) 120 Side.BUY).2 =
        [(Price.fin (211 / 2), [⟨301, Price.fin (211 / 2), 20, Side.BUY, 0⟩]),
          (Price.fin 104, [⟨201, Price.fin 104, 200, Side.BUY, 0⟩])] ∧
      ((∃ pre q post, sameSide Side.BUY mainBook = pre ++ (Price.fin (211 / 2), q) :: post ∧
          sameSide Side.BUY (add_order mainBook 0 301 (Price.fin (211 / 2)) 120 Side.BUY).2 =
            pre ++ (Price.fin (211 / 2), q ++
              [⟨301, Price.fin (211 / 2),
                (match_order mainBook 301 (Price.fin (211 / 2)) 120 Side.BUY).2.1,
                Side.BUY, 0⟩]) :: post) ∨
        (Price.fin (211 / 2) ∉ keys (sameSide Side.BUY mainBook) ∧
          ∃ pre post, sameSide Side.BUY mainBook = pre ++ post ∧
            sameSide Side.BUY (add_order mainBook 0 301 (Price.fin (211 / 2)) 120 Side.BUY).2 =
              pre ++ (Price.fin (211 / 2),
                [⟨301, Price.fin (211 / 2),
                  (match_order mainBook 301 (Price.fin (211 / 2)) 120 Side.BUY).2.1,
                  Side.BUY, 0⟩]) :: post ∧
            (∀ k ∈ keys pre, sameBefore Side.BUY k (Price.fin (211 / 2))) ∧
            ∀ k ∈ keys post, sameBefore Side.BUY (Price.fin (211 / 2)) k)) := by
  have hs : (keys (sameSide Side.BUY mainBook)).Pairwise (sameBefore Side.BUY) := by
    simp [mainBook, sameSide, keys]
  have hk : ∀ k ∈ keys (sameSide Side.BUY mainBook), k ≠ Price.nan := by
    simp [mainBook, sameSide, keys]
  have hr : 0 < (match_order mainBook 301 (Price.fin (211 / 2)) 120 Side.BUY).2.1 := by
    rw [match_order_mainBook]; decide
  refine ⟨hs, by simp, hk, hr, ?_,
    (rest_remainder mainBook 0 301 (Price.fin (211 / 2)) 120 Side.BUY).2.1 hs (by simp) hk hr⟩
  rw [add_order_sameSide, match_order_mainBook]
  norm_num [sameSide, mainBook, pushBack, sameCmp, greaterCmp]

/-! ## A submit that does not cross -/

theorem add_order_trades (book : OrderBook) (now id : Int) (price : Price) (quantity : Int)
    (side : Side) :
    (add_order book now id price quantity side).1 = (match_order book id price quantity side).1 := by
  simp only [add_order]
  split <;> cases side <;> rfl

theorem add_order_opposing (book : OrderBook) (now id : Int) (price : Price) (quantity : Int)
    (side : Side) :
    opposing side (add_order book now id price quantity side).2 =
      (matchLevels side id price quantity (opposing side book)).levels := by
  simp only [add_order]
  split <;> cases side <;> rfl

theorem add_order_askOnlyBook :
    add_order askOnlyBook 9 3 Price.nan 5 Side.SELL =
      ([], { bids := [], asks := [(Price.fin 106, [⟨102, Price.fin 106, 50, Side.SELL, 0⟩,
          ⟨3, Price.nan, 5, Side.SELL, 9⟩])] }) := by
  norm_num [askOnlyBook, add_order, match_order, matchLevels_nil, pushBack, lessCmp]

/-- C11, as stated, fails for a NaN price: a SELL of 5 units at NaN on a book with no bid
and the one ask level 106 meets the condition of the claim (the opposing side is empty),
yet it rests inside level 106 and not at its own price. -/
theorem non_crossing_submit_counterexample :
    (0 : Int) < 5 ∧
      (keys (sameSide Side.SELL askOnlyBook)).Pairwise (sameBefore Side.SELL) ∧
      opposing Side.SELL askOnlyBook = [] ∧
      sameSide Side.SELL (add_order askOnlyBook 9 3 Price.nan 5 Side.SELL).2 =
        [(Price.fin 106, [⟨102, Price.fin 106, 50, Side.SELL, 0⟩,
          ⟨3, Price.nan, 5, Side.SELL, 9⟩])] ∧
      ¬ ((∃ pre q post, sameSide Side.SELL askOnlyBook = pre ++ (Price.nan, q) :: post ∧
            sameSide Side.SELL (add_order askOnlyBook 9 3 Price.nan 5 Side.SELL).2 =
              pre ++ (Price.nan, q ++ [⟨3, Price.nan, 5, Side.SELL, 9⟩]) :: post) ∨
          (Price.nan ∉ keys (sameSide Side.SELL askOnlyBook) ∧
            ∃ pre post, sameSide Side.SELL askOnlyBook = pre ++ post ∧
              sameSide Side.SELL (add_order askOnlyBook 9 3 Price.nan 5 Side.SELL).2 =
                pre ++ (Price.nan, [⟨3, Price.nan, 5, Side.SELL, 9⟩]) :: post ∧
              (∀ k ∈ keys pre, sameBefore Side.SELL k Price.nan) ∧
              ∀ k ∈ keys post, sameBefore Side.SELL Price.nan k)) := by
  refine ⟨by decide, by simp [askOnlyBook, sameSide, keys], rfl,
    by rw [add_order_askOnlyBook]; rfl, ?_⟩
  rw [add_order_askOnlyBook]
  rintro (⟨pre, q, post, h1, _⟩ | ⟨_, pre, post, _, h2, _⟩)
  · have hm : (Price.nan, q) ∈ sameSide Side.SELL askOnlyBook := by rw [h1]; simp
    simp [askOnlyBook, sameSide] at hm
  · have hm : (Price.nan, [(⟨3, Price.nan, 5, Side.SELL, 9⟩ : Order)]) ∈
        sameSide Side.SELL { bids := [], asks := [(Price.fin 106,
          [⟨102, Price.fin 106, 50, Side.SELL, 0⟩, ⟨3, Price.nan, 5, Side.SELL, 9⟩])] } := by
      rw [h2]; simp
    simp [sameSide] at hm

/-- C11, amended. For every book and every `add_order` call with `quantity > 0` whose
opposing side is empty or has a best price beyond the order's price (BUY price < best
ask, SELL price > best bid): no trade is emitted, the opposing side is unchanged, and one
order with the full original quantity is added on the same side, at the end of the queue
of one level or as a new level `(price, [order])`, nothing else moving. When the price is
not NaN and no level of the book is keyed NaN, that condition is that the opposing side is
empty or its best price fails the crossing test, and the order rests at its own price: at
the end of the queue of the level keyed `price`, or in a new level at its place in the
iteration order. -/
theorem non_crossing_submit (book : OrderBook) (now id : Int) (price : Price) (quantity : Int)
    (side : Side) (hq : 0 < quantity) :
    ((∀ lv ∈ (opposing side book).head?, noDeal side price lv.1 = true) →
        (add_order book now id price quantity side).1 = [] ∧
          opposing side (add_order book now id price quantity side).2 = opposing side book ∧
          ((∃ pre k q post, sameSide side book = pre ++ (k, q) :: post ∧
              sameSide side (add_order book now id price quantity side).2 =
                pre ++ (k, q ++ [⟨id, price, quantity, side, now⟩]) :: post) ∨
            (∃ pre post, sameSide side book = pre ++ post ∧
              sameSide side (add_order book now id price quantity side).2 =
                pre ++ (price, [⟨id, price, quantity, side, now⟩]) :: post))) ∧
      (price ≠ Price.nan → (∀ k ∈ keys book.bids ++ keys book.asks, k ≠ Price.nan) →
        (keys (sameSide side book)).Pairwise (sameBefore side) →
        (∀ lv ∈ (opposing side book).head?, ¬ crosses side price lv.1) →
        (add_order book now id price quantity side).1 = [] ∧
          opposing side (add_order book now id price quantity side).2 = opposing side book ∧
          ((∃ pre q post, sameSide side book = pre ++ (price, q) :: post ∧
              sameSide side (add_order book now id price quantity side).2 =
                pre ++ (price, q ++ [⟨id, price, quantity, side, now⟩]) :: post) ∨
            (price ∉ keys (sameSide side book) ∧
              ∃ pre post, sameSide side book = pre ++ post ∧
                sameSide side (add_order book now id price quantity side).2 =
                  pre ++ (price, [⟨id, price, quantity, side, now⟩]) :: post ∧
                (∀ k ∈ keys pre, sameBefore side k price) ∧
                ∀ k ∈ keys post, sameBefore side price k))) := by
  have hkeys : ∀ k, k ∈ keys (opposing side book) ∨ k ∈ keys (sameSide side book) →
      k ∈ keys book.bids ++ keys book.asks := by
    intro k hk
    cases side
    · rcases hk with h | h
      · exact List.mem_append_right _ h
      · exact List.mem_append_left _ h
    · rcases hk with h | h
      · exact List.mem_append_left _ h
      · exact List.mem_append_right _ h
  constructor
  · intro hno
    have hm := matchLevels_break side id price (opposing side book) quantity hno
    refine ⟨?_, ?_, ?_⟩
    · rw [add_order_trades, match_order_trades, hm]
    · rw [add_order_opposing, hm]
    · rw [add_order_sameSide, match_order_remaining, hm]
      simp only [hq, if_true]
      exact pushBack_frame_any _ price _ _
  · intro hp hk hs hno
    have hm := matchLevels_break side id price (opposing side book) quantity
      (head_noDeal_of_not_crosses side price _ hp
        (fun lv hlv => hk _ (hkeys _ (Or.inl (head_mem_keys _ lv hlv)))) hno)
    refine ⟨?_, ?_, ?_⟩
    · rw [add_order_trades, match_order_trades, hm]
    · rw [add_order_opposing, hm]
    · rw [add_order_sameSide, match_order_remaining, hm]
      simp only [hq, if_true]
      exact pushBack_frame_side side price _ _ hs hp (fun k hkm => hk _ (hkeys _ (Or.inr hkm)))

/-- Witness of C11 amended: a BUY of 30 units at 104 against the book of `main`, whose best
ask is 105.5, trades nothing and rests behind order 201 in the bid level 104. -/
theorem non_crossing_submit_witness :
    (0 : Int) < 30 ∧ Price.fin 104 ≠ Price.nan ∧
      (∀ k ∈ keys mainBook.bids ++ keys mainBook.asks, k ≠ Price.nan) ∧
      (keys (sameSide Side.BUY mainBook)).Pairwise (sameBefore Side.BUY) ∧
      (∀ lv ∈ (opposing Side.BUY mainBook).head?, ¬ crosses Side.BUY (Price.fin 104) lv.1) ∧
      (add_order mainBook 5 202 (Price.fin 104) 30 Side.BUY).2.bids =
        [(Price.fin 104, [⟨201, Price.fin 104, 200, Side.BUY, 0⟩,
          ⟨202, Price.fin 104, 30, Side.BUY, 5⟩])] ∧
      ((add_order mainBook 5 202 (Price.fin 104) 30 Side.BUY).1 = [] ∧
        opposing Side.BUY (add_order mainBook 5 202 (Price.fin 104) 30 Side.BUY).2 =
          opposing Side.BUY mainBook ∧
        ((∃ pre q post, sameSide Side.BUY mainBook = pre ++ (Price.fin 104, q) :: post ∧
            sameSide Side.BUY (add_order mainBook 5 202 (Price.fin 104) 30 Side.BUY).2 =
              pre ++ (Price.fin 104, q ++ [⟨202, Price.fin 104, 30, Side.BUY, 5⟩]) :: post) ∨
          (Price.fin 104 ∉ keys (sameSide Side.BUY mainBook) ∧
            ∃ pre post, sameSide Side.BUY mainBook = pre ++ post ∧
              sameSide Side.BUY (add_order mainBook 5 202 (Price.fin 104) 30 Side.BUY).2 =
                pre ++ (Price.fin 104, [⟨202, Price.fin 104, 30, Side.BUY, 5⟩]) :: post ∧
              (∀ k ∈ keys pre, sameBefore Side.BUY k (Price.fin 104)) ∧
              ∀ k ∈ keys post, sameBefore Side.BUY (Price.fin 104) k))) := by
  have hs : (keys (sameSide Side.BUY mainBook)).Pairwise (sameBefore Side.BUY) := by
    simp [mainBook, sameSide, keys]
  have hk : ∀ k ∈ keys mainBook.bids ++ keys mainBook.asks, k ≠ Price.nan := by
    simp [mainBook, keys]
  have hno : ∀ lv ∈ (opposing Side.BUY mainBook).head?,
      ¬ crosses Side.BUY (Price.fin 104) lv.1 := by
    norm_num [mainBook, opposing, crosses]
  refine ⟨by decide, by simp, hk, hs, hno, ?_,
    (non_crossing_submit mainBook 5 202 (Price.fin 104) 30 Side.BUY (by decide)).2 (by simp)
      hk hs hno⟩
  norm_num [mainBook, add_order, match_order, matchLevels_noDeal, noDeal, pushBack, greaterCmp]

/-! ## The run of `main` -/

theorem submitAll_passiveCalls (t1 t2 t3 : Int) :
    submitAll OrderBook.empty (passiveCalls t1 t2 t3) =
      { bids := [(Price.fin 104, [⟨201, Price.fin 104, 200, Side.BUY, t3⟩])]
        asks := [(Price.fin (211 / 2), [⟨101, Price.fin (211 / 2), 100, Side.SELL, t1⟩]),
          (Price.fin 106, [⟨102, Price.fin 106, 50, Side.SELL, t2⟩])] } := by
  norm_num [passiveCalls, submitAll, add_order, match_order, matchLevels_nil, matchLevels_noDeal,
    pushBack, OrderBook.empty, noDeal, lessCmp, greaterCmp]

/-- C12. Starting from the empty book, after `add_order(101, 105.50, 100, SELL)`,
`add_order(102, 106.00, 50, SELL)` and `add_order(201, 104.00, 200, BUY)`, the call
`add_order(301, 105.50, 120, BUY)` emits exactly one trade, 100 units at 105.50 with buyer
301 and seller 101; the final book has asks exactly `106.00: 50` and bids exactly
`105.50: 20, 104.00: 200`, the bid at 105.50 being the single order 301; this at whatever
clock values the four calls are made. -/
theorem worked_scenario (t1 t2 t3 t4 : Int) :
    (add_order (submitAll OrderBook.empty (passiveCalls t1 t2 t3)) t4 301 (Price.fin (211 / 2)) 120
        Side.BUY).1 = [⟨100, Price.fin (211 / 2), 301, 101⟩] ∧
      (add_order (submitAll OrderBook.empty (passiveCalls t1 t2 t3)) t4 301 (Price.fin (211 / 2)) 120
        Side.BUY).2 =
        { bids := [(Price.fin (211 / 2), [⟨301, Price.fin (211 / 2), 20, Side.BUY, t4⟩]),
            (Price.fin 104, [⟨201, Price.fin 104, 200, Side.BUY, t3⟩])]
          asks := [(Price.fin 106, [⟨102, Price.fin 106, 50, Side.SELL, t2⟩])] } ∧
      print_book (add_order (submitAll OrderBook.empty (passiveCalls t1 t2 t3)) t4 301 (Price.fin (211 / 2))
        120 Side.BUY).2 =
        { asks := [(Price.fin 106, 50)], bids := [(Price.fin (211 / 2), 20), (Price.fin 104, 200)] } := by
  have h : add_order (submitAll OrderBook.empty (passiveCalls t1 t2 t3)) t4 301 (Price.fin (211 / 2)) 120
      Side.BUY =
      ([⟨100, Price.fin (211 / 2), 301, 101⟩],
        { bids := [(Price.fin (211 / 2), [⟨301, Price.fin (211 / 2), 20, Side.BUY, t4⟩]),
            (Price.fin 104, [⟨201, Price.fin 104, 200, Side.BUY, t3⟩])]
          asks := [(Price.fin 106, [⟨102, Price.fin 106, 50, Side.SELL, t2⟩])] }) := by
    rw [submitAll_passiveCalls]
    norm_num [add_order, match_order, matchLevels_nil, matchLevels_noDeal, matchLevels_erase,
      matchLevels_keep, fillQueue_nil, fillQueue_pop, fillQueue_keep, pushBack, wrap32, noDeal,
      greaterCmp, mkTrade]
  rw [h]
  refine ⟨rfl, rfl, ?_⟩
  simp [print_book, levelVolume, wrap32]

/-! ## The sum reported by the snapshot -/

theorem submitAll_wrapCalls :
    submitAll OrderBook.empty wrapCalls =
      { bids := []
        asks := [(Price.fin 100, [⟨1, Price.fin 100, 1073741824, Side.SELL, 0⟩,
          ⟨2, Price.fin 100, 1073741824, Side.SELL, 0⟩])] } := by
  norm_num [wrapCalls, submitAll, add_order, match_order, matchLevels_nil, pushBack,
    OrderBook.empty, lessCmp]

/-- C13. The code at the failing input: after two SELL orders of `2^30` units at price 100
(each quantity an `int`), the quantities of the one ask level add up to `2^31`, but the
`int total` of `print_book` overflows and the level is reported with `-2^31`. -/
theorem print_book_sum_overflow :
    (∀ c ∈ wrapCalls, isInt32 c.quantity) ∧
      (submitAll OrderBook.empty wrapCalls).asks.map (fun lv => (lv.1, queueQty lv.2)) =
        [(Price.fin 100, 2147483648)] ∧
      (print_book (submitAll OrderBook.empty wrapCalls)).asks =
        [(Price.fin 100, -2147483648)] := by
  refine ⟨?_, ?_, ?_⟩
  · intro c hc
    simp only [wrapCalls, List.mem_cons, List.mem_singleton, List.not_mem_nil,
      or_false] at hc
    rcases hc with h | h <;> (rw [h]; decide)
  · rw [submitAll_wrapCalls]
    simp [queueQty]
  · rw [submitAll_wrapCalls]
    simp [print_book, levelVolume, wrap32]

/-! ## What matching and resting do to the fields of resting orders -/

/-- The inner loop only erases orders from the front and rewrites quantities: under a view
`g` of an order that ignores the quantity, the queue left is a tail of the queue before. -/
theorem fillQueue_queue_map {β : Type} (g : Order → β)
    (hg : ∀ (o : Order) (n : Int), g { o with quantity := n } = g o)
    (side : Side) (id : Int) (bp : Price) (q : List Order) :
    ∀ r : Int, ∃ pre : List β, q.map g = pre ++ (fillQueue side id bp r q).queue.map g := by
  induction q with
  | nil => intro r; exact ⟨[], by simp [fillQueue_nil]⟩
  | cons o rest ih =>
    intro r
    by_cases hr : 0 < r
    · by_cases hz : wrap32 (o.quantity - min r o.quantity) = 0
      · rw [fillQueue_pop side id bp r o rest hr hz]
        obtain ⟨pre, hpre⟩ := ih (wrap32 (r - min r o.quantity))
        exact ⟨g o :: pre, by simp only [List.map_cons, List.cons_append, hpre]⟩
      · rw [fillQueue_keep side id bp r o rest hr hz]
        exact ⟨[], by simp only [List.map_cons, List.nil_append, hg]⟩
    · rw [fillQueue_stop side id bp r o rest hr]
      exact ⟨[], rfl⟩

/-- Every level left by the outer loop is a level of the map before, under the same key,
with a tail of its queue (quantities apart). -/
theorem matchLevels_levels_map {β : Type} (g : Order → β)
    (hg : ∀ (o : Order) (n : Int), g { o with quantity := n } = g o)
    (side : Side) (id : Int) (price : Price) (levels : List Level) :
    ∀ r : Int, ∀ lv2 ∈ (matchLevels side id price r levels).levels,
      ∃ lv ∈ levels, lv2.1 = lv.1 ∧ ∃ pre : List β, lv.2.map g = pre ++ lv2.2.map g := by
  induction levels with
  | nil => intro r lv2 h; simp [matchLevels_nil] at h
  | cons lv rest ih =>
    intro r lv2 h
    obtain ⟨bp, q⟩ := lv
    have hsame : ∀ l ∈ (bp, q) :: rest,
        ∃ lv ∈ (bp, q) :: rest, l.1 = lv.1 ∧ ∃ pre : List β, lv.2.map g = pre ++ l.2.map g :=
      fun l hl => ⟨l, hl, rfl, [], rfl⟩
    by_cases hr : 0 < r
    · cases hn : noDeal side price bp
      · by_cases he : (fillQueue side id bp r q).queue = []
        · rw [matchLevels_erase side id price r bp q rest hr hn he] at h
          obtain ⟨lv, h1, h2⟩ := ih _ lv2 h
          exact ⟨lv, List.mem_cons_of_mem _ h1, h2⟩
        · rw [matchLevels_keep side id price r bp q rest hr hn he] at h
          rcases List.mem_cons.mp h with h1 | h1
          · rw [h1]
            exact ⟨(bp, q), List.mem_cons_self _ _, rfl, fillQueue_queue_map g hg side id bp q r⟩
          · exact hsame lv2 (List.mem_cons_of_mem _ h1)
      · rw [matchLevels_noDeal side id price r bp q rest hr hn] at h
        exact hsame lv2 h
    · rw [matchLevels_stop side id price r _ hr] at h
      exact hsame lv2 h

/-- Every level after `m[price].push_back(o)` is a level of the map before, the new level
`(price, [o])`, or a level whose key the comparator finds equivalent to `price`, with `o`
at the end of its queue. -/
theorem pushBack_levels (comp : Price → Price → Bool) (p : Price) (o : Order)
    (levels : List Level) :
    ∀ lv2 ∈ pushBack comp p o levels,
      lv2 ∈ levels ∨ lv2 = (p, [o]) ∨
        ∃ k q, (k, q) ∈ levels ∧ comp k p = false ∧ comp p k = false ∧ lv2 = (k, q ++ [o]) := by
  induction levels with
  | nil =>
    intro lv2 h
    simp only [pushBack, List.mem_singleton] at h
    exact Or.inr (Or.inl h)
  | cons lv rest ih =>
    obtain ⟨k, q⟩ := lv
    intro lv2 h
    simp only [pushBack] at h
    cases h1 : comp k p
    · cases h2 : comp p k
      · simp only [h1, h2, Bool.false_eq_true, if_false] at h
        rcases List.mem_cons.mp h with h3 | h3
        · exact Or.inr (Or.inr ⟨k, q, List.mem_cons_self _ _, h1, h2, h3⟩)
        · exact Or.inl (List.mem_cons_of_mem _ h3)
      · simp only [h1, h2, Bool.false_eq_true, if_false, if_true] at h
        rcases List.mem_cons.mp h with h3 | h3
        · exact Or.inr (Or.inl h3)
        · exact Or.inl h3
    · simp only [h1, if_true] at h
      rcases List.mem_cons.mp h with h3 | h3
      · exact Or.inl (by rw [h3]; exact List.mem_cons_self _ _)
      · rcases ih lv2 h3 with h4 | h4 | ⟨k2, q2, h4, h5, h6, h7⟩
        · exact Or.inl (List.mem_cons_of_mem _ h4)
        · exact Or.inr (Or.inl h4)
        · exact Or.inr (Or.inr ⟨k2, q2, List.mem_cons_of_mem _ h4, h5, h6, h7⟩)

/-- Away from NaN, two prices that `std::less` finds equivalent are equal. -/
theorem lessCmp_tri (a b : Price) (ha : a ≠ Price.nan) (hb : b ≠ Price.nan)
    (h1 : lessCmp a b = false) (h2 : lessCmp b a = false) : a = b := by
  simp only [lessCmp, decide_eq_false_iff_not] at h1 h2
  exact Price.eq_of_not_lt ha hb h1 h2

/-- Away from NaN, two prices that `std::greater` finds equivalent are equal. -/
theorem greaterCmp_tri (a b : Price) (ha : a ≠ Price.nan) (hb : b ≠ Price.nan)
    (h1 : greaterCmp a b = false) (h2 : greaterCmp b a = false) : a = b := by
  simp only [greaterCmp, decide_eq_false_iff_not, gt_iff_lt] at h1 h2
  exact Price.eq_of_not_lt ha hb h2 h1

/-! ## Level homogeneity -/

theorem matchLevels_sided (s : Side) (side : Side) (id : Int) (price : Price)
    (levels : List Level) (r : Int) (h : ∀ lv ∈ levels, ∀ o ∈ lv.2, o.side = s) :
    ∀ lv ∈ (matchLevels side id price r levels).levels, ∀ o ∈ lv.2, o.side = s := by
  intro lv2 hlv2 o2 ho2
  obtain ⟨lv, hlv, _, pre, hpre⟩ :=
    matchLevels_levels_map Order.side (fun _ _ => rfl) side id price levels r lv2 hlv2
  have hmem : o2.side ∈ lv.2.map Order.side := by
    rw [hpre]
    exact List.mem_append_right _ (List.mem_map_of_mem _ ho2)
  obtain ⟨o, ho, heq⟩ := List.mem_map.mp hmem
  rw [← heq]
  exact h lv hlv o ho

theorem pushBack_sided (s : Side) (comp : Price → Price → Bool) (p : Price) (o : Order)
    (levels : List Level) (h : ∀ lv ∈ levels, ∀ x ∈ lv.2, x.side = s) (ho : o.side = s) :
    ∀ lv ∈ pushBack comp p o levels, ∀ x ∈ lv.2, x.side = s := by
  intro lv2 hlv2 x hx
  rcases pushBack_levels comp p o levels lv2 hlv2 with h1 | h1 | ⟨k, q, h1, _, _, h2⟩
  · exact h lv2 h1 x hx
  · rw [h1] at hx
    rw [List.mem_singleton.mp hx]; exact ho
  · rw [h2] at hx
    rcases List.mem_append.mp hx with h3 | h3
    · exact h (k, q) h1 x h3
    · rw [List.mem_singleton.mp h3]; exact ho

theorem add_order_sided (book : OrderBook) (now id : Int) (price : Price)
    (quantity : Int) (side : Side) (hb : ∀ lv ∈ book.bids, ∀ o ∈ lv.2, o.side = Side.BUY)
    (ha : ∀ lv ∈ book.asks, ∀ o ∈ lv.2, o.side = Side.SELL) :
    (∀ lv ∈ (add_order book now id price quantity side).2.bids, ∀ o ∈ lv.2,
        o.side = Side.BUY) ∧
      (∀ lv ∈ (add_order book now id price quantity side).2.asks, ∀ o ∈ lv.2,
        o.side = Side.SELL) := by
  cases side
  · have hm := matchLevels_sided Side.SELL Side.BUY id price book.asks quantity ha
    simp only [add_order, match_order]
    split
    · exact ⟨pushBack_sided Side.BUY greaterCmp price _ _ hb rfl, hm⟩
    · exact ⟨hb, hm⟩
  · have hm := matchLevels_sided Side.BUY Side.SELL id price book.bids quantity hb
    simp only [add_order, match_order]
    split
    · exact ⟨hm, pushBack_sided Side.SELL lessCmp price _ _ ha rfl⟩
    · exact ⟨hm, ha⟩

theorem submitAll_sided (calls : List Call) :
    ∀ book : OrderBook, (∀ lv ∈ book.bids, ∀ o ∈ lv.2, o.side = Side.BUY) →
      (∀ lv ∈ book.asks, ∀ o ∈ lv.2, o.side = Side.SELL) →
      (∀ lv ∈ (submitAll book calls).bids, ∀ o ∈ lv.2, o.side = Side.BUY) ∧
        (∀ lv ∈ (submitAll book calls).asks, ∀ o ∈ lv.2, o.side = Side.SELL) := by
  induction calls with
  | nil => intro book hb ha; exact ⟨hb, ha⟩
  | cons c cs ih =>
    intro book hb ha
    have h := add_order_sided book c.now c.id c.price c.quantity c.side hb ha
    exact ih _ h.1 h.2

theorem matchLevels_homogeneous (s : Side) (side : Side) (id : Int) (price : Price)
    (levels : List Level) (r : Int) (h : homogeneous s levels) :
    homogeneous s (matchLevels side id price r levels).levels := by
  intro lv2 hlv2 o2 ho2
  obtain ⟨lv, hlv, hkey, pre, hpre⟩ :=
    matchLevels_levels_map (fun o => (o.price, o.side)) (fun _ _ => rfl) side id price levels r
      lv2 hlv2
  have hmem : (o2.price, o2.side) ∈ lv.2.map (fun o => (o.price, o.side)) := by
    rw [hpre]
    exact List.mem_append_right _ (List.mem_map_of_mem _ ho2)
  obtain ⟨o, ho, heq⟩ := List.mem_map.mp hmem
  have := h lv hlv o ho
  simp only [Prod.mk.injEq] at heq
  rw [hkey, ← heq.1, ← heq.2]
  exact this

theorem matchLevels_keys_mem (side : Side) (id : Int) (price : Price) (levels : List Level)
    (r : Int) (k : Price) (hk : k ∈ keys (matchLevels side id price r levels).levels) :
    k ∈ keys levels := by
  obtain ⟨pre, hpre⟩ := matchLevels_keys side id price levels r
  rw [hpre]
  exact List.mem_append_right _ hk

/-- When the comparator finds no key of the map equivalent to `price` but `price` itself,
the new order lands in the level keyed by its price. -/
theorem pushBack_homogeneous (s : Side) (comp : Price → Price → Bool)
    (p : Price) (o : Order) (levels : List Level)
    (htri : ∀ k ∈ keys levels, comp k p = false → comp p k = false → k = p)
    (h : homogeneous s levels)
    (ho : o.price = p ∧ o.side = s) : homogeneous s (pushBack comp p o levels) := by
  intro lv2 hlv2 x hx
  rcases pushBack_levels comp p o levels lv2 hlv2 with h1 | h1 | ⟨k, q, h1, c1, c2, h2⟩
  · exact h lv2 h1 x hx
  · rw [h1] at hx ⊢
    rw [List.mem_singleton.mp hx]; exact ho
  · have hk : k = p := htri k (List.mem_map_of_mem Prod.fst h1) c1 c2
    rw [h2] at hx ⊢
    rcases List.mem_append.mp hx with h3 | h3
    · exact h (k, q) h1 x h3
    · rw [List.mem_singleton.mp h3, hk]; exact ho

/-- One `add_order` call at a price that is not NaN, on a book without NaN key, keeps every
order in the level keyed by its price and on the side of its own, and adds no NaN key. -/
theorem add_order_homogeneous (book : OrderBook) (now id : Int) (price : Price)
    (quantity : Int) (side : Side) (hp : price ≠ Price.nan)
    (hb : homogeneous Side.BUY book.bids) (ha : homogeneous Side.SELL book.asks)
    (hkb : ∀ k ∈ keys book.bids, k ≠ Price.nan) (hka : ∀ k ∈ keys book.asks, k ≠ Price.nan) :
    (homogeneous Side.BUY (add_order book now id price quantity side).2.bids ∧
        homogeneous Side.SELL (add_order book now id price quantity side).2.asks) ∧
      (∀ k ∈ keys (add_order book now id price quantity side).2.bids, k ≠ Price.nan) ∧
      (∀ k ∈ keys (add_order book now id price quantity side).2.asks, k ≠ Price.nan) := by
  cases side
  · have hm := matchLevels_homogeneous Side.SELL Side.BUY id price book.asks quantity ha
    have hkm : ∀ k ∈ keys (matchLevels Side.BUY id price quantity book.asks).levels,
        k ≠ Price.nan := fun k hk => hka k (matchLevels_keys_mem _ _ _ _ _ k hk)
    simp only [add_order, match_order]
    split
    · refine ⟨⟨pushBack_homogeneous Side.BUY greaterCmp price _ _
        (fun k hk c1 c2 => greaterCmp_tri k price (hkb k hk) hp c1 c2) hb ⟨rfl, rfl⟩, hm⟩,
        ?_, hkm⟩
      intro k hk
      rcases mem_keys_pushBack _ _ _ _ _ hk with h | h
      · rw [h]; exact hp
      · exact hkb k h
    · exact ⟨⟨hb, hm⟩, hkb, hkm⟩
  · have hm := matchLevels_homogeneous Side.BUY Side.SELL id price book.bids quantity hb
    have hkm : ∀ k ∈ keys (matchLevels Side.SELL id price quantity book.bids).levels,
        k ≠ Price.nan := fun k hk => hkb k (matchLevels_keys_mem _ _ _ _ _ k hk)
    simp only [add_order, match_order]
    split
    · refine ⟨⟨hm, pushBack_homogeneous Side.SELL lessCmp price _ _
        (fun k hk c1 c2 => lessCmp_tri k price (hka k hk) hp c1 c2) ha ⟨rfl, rfl⟩⟩,
        hkm, ?_⟩
      intro k hk
      rcases mem_keys_pushBack _ _ _ _ _ hk with h | h
      · rw [h]; exact hp
      · exact hka k h
    · exact ⟨⟨hm, ha⟩, hkm, hka⟩

theorem submitAll_homogeneous (calls : List Call) :
    ∀ book : OrderBook, (∀ c ∈ calls, c.price ≠ Price.nan) →
      homogeneous Side.BUY book.bids → homogeneous Side.SELL book.asks →
      (∀ k ∈ keys book.bids, k ≠ Price.nan) → (∀ k ∈ keys book.asks, k ≠ Price.nan) →
      homogeneous Side.BUY (submitAll book calls).bids ∧
        homogeneous Side.SELL (submitAll book calls).asks := by
  induction calls with
  | nil => intro book _ hb ha _ _; exact ⟨hb, ha⟩
  | cons c cs ih =>
    intro book hc hb ha hkb hka
    have h := add_order_homogeneous book c.now c.id c.price c.quantity c.side
      (hc c (List.mem_cons_self _ _)) hb ha hkb hka
    exact ih _ (fun x hx => hc x (List.mem_cons_of_mem _ hx)) h.1.1 h.1.2 h.2.1 h.2.2

theorem submitAll_nanCalls :
    submitAll OrderBook.empty nanCalls =
      { bids := [(Price.fin 104, [⟨1, Price.fin 104, 10, Side.BUY, 0⟩,
          ⟨2, Price.nan, 5, Side.BUY, 1⟩])], asks := [] } := by
  norm_num [nanCalls, submitAll, add_order, match_order, matchLevels_nil, pushBack,
    OrderBook.empty, greaterCmp]

/-- C14, as stated, fails for a NaN price: after `add_order(1, 104, 10, BUY)` and
`add_order(2, NaN, 5, BUY)` the queue of the bid level keyed 104 holds order 2, whose price
field is NaN. -/
theorem level_homogeneity_counterexample :
    (submitAll OrderBook.empty nanCalls).bids =
        [(Price.fin 104, [⟨1, Price.fin 104, 10, Side.BUY, 0⟩,
          ⟨2, Price.nan, 5, Side.BUY, 1⟩])] ∧
      ¬ (∀ lv ∈ (submitAll OrderBook.empty nanCalls).bids, ∀ o ∈ lv.2, o.price = lv.1) := by
  rw [submitAll_nanCalls]
  refine ⟨rfl, ?_⟩
  intro h
  have h1 := h (Price.fin 104, [⟨1, Price.fin 104, 10, Side.BUY, 0⟩,
    ⟨2, Price.nan, 5, Side.BUY, 1⟩]) (by simp) ⟨2, Price.nan, 5, Side.BUY, 1⟩ (by simp)
  simp at h1

/-- C14, amended. In every book reached from the empty book by a sequence of `add_order`
calls, every order on the bid side has side BUY and every order on the ask side has side
SELL; when no call carries a NaN price, every order stored in the queue of the level keyed
by price `p` has price field `p`. -/
theorem level_homogeneity (calls : List Call) :
    (∀ lv ∈ (submitAll OrderBook.empty calls).bids, ∀ o ∈ lv.2, o.side = Side.BUY) ∧
      (∀ lv ∈ (submitAll OrderBook.empty calls).asks, ∀ o ∈ lv.2, o.side = Side.SELL) ∧
      ((∀ c ∈ calls, c.price ≠ Price.nan) →
        ∀ lv ∈ (submitAll OrderBook.empty calls).bids ++ (submitAll OrderBook.empty calls).asks,
          ∀ o ∈ lv.2, o.price = lv.1) := by
  have hs := submitAll_sided calls OrderBook.empty
    (fun lv h => by simp [OrderBook.empty] at h) (fun lv h => by simp [OrderBook.empty] at h)
  refine ⟨hs.1, hs.2, ?_⟩
  intro hc lv hlv o ho
  have hh := submitAll_homogeneous calls OrderBook.empty hc
    (fun lv h => by simp [OrderBook.empty] at h) (fun lv h => by simp [OrderBook.empty] at h)
    (fun k h => by simp [OrderBook.empty, keys] at h)
    (fun k h => by simp [OrderBook.empty, keys] at h)
  rcases List.mem_append.mp hlv with h | h
  · exact (hh.1 lv h o ho).1
  · exact (hh.2 lv h o ho).1

/-- Instance of C14 amended: the calls of `main` carry no NaN price, and in the final book
of `main` every order has the price of its level. -/
theorem level_homogeneity_witness :
    (∀ c ∈ mainCalls, c.price ≠ Price.nan) ∧
      (submitAll OrderBook.empty mainCalls).bids =
        [(Price.fin (211 / 2), [⟨301, Price.fin (211 / 2), 20, Side.BUY, 0⟩]),
          (Price.fin 104, [⟨201, Price.fin 104, 200, Side.BUY, 0⟩])] ∧
      (∀ lv ∈ (submitAll OrderBook.empty mainCalls).bids ++
          (submitAll OrderBook.empty mainCalls).asks, ∀ o ∈ lv.2, o.price = lv.1) := by
  have hc : ∀ c ∈ mainCalls, c.price ≠ Price.nan := by
    intro c hc
    simp only [mainCalls, List.mem_cons, List.mem_singleton, List.not_mem_nil,
      or_false] at hc
    rcases hc with h | h | h | h <;> (rw [h]; simp)
  exact ⟨hc, by rw [submitAll_mainCalls], (level_homogeneity mainCalls).2.2 hc⟩

/-! ## Timestamps -/

theorem stamped_mono (T T2 : Int) (levels : List Level) (hT : T ≤ T2) (h : stamped T levels) :
    stamped T2 levels :=
  fun lv hlv => ⟨(h lv hlv).1, fun o ho => le_trans ((h lv hlv).2 o ho) hT⟩

theorem matchLevels_stamped (T : Int) (side : Side) (id : Int) (price : Price)
    (levels : List Level) (r : Int) (h : stamped T levels) :
    stamped T (matchLevels side id price r levels).levels := by
  intro lv2 hlv2
  obtain ⟨lv, hlv, _, pre, hpre⟩ :=
    matchLevels_levels_map Order.timestamp (fun _ _ => rfl) side id price levels r lv2 hlv2
  obtain ⟨h1, h2⟩ := h lv hlv
  rw [hpre] at h1
  refine ⟨(List.pairwise_append.mp h1).2.1, ?_⟩
  intro o ho
  have hmem : o.timestamp ∈ lv.2.map Order.timestamp := by
    rw [hpre]
    exact List.mem_append_right _ (List.mem_map_of_mem _ ho)
  obtain ⟨x, hx, heq⟩ := List.mem_map.mp hmem
  rw [← heq]
  exact h2 x hx

theorem pushBack_stamped (T : Int) (comp : Price → Price → Bool)
    (p : Price) (o : Order) (levels : List Level) (h : stamped T levels)
    (ho : T ≤ o.timestamp) : stamped o.timestamp (pushBack comp p o levels) := by
  intro lv2 hlv2
  rcases pushBack_levels comp p o levels lv2 hlv2 with h1 | h1 | ⟨k, q, h1, _, _, h2⟩
  · exact stamped_mono T o.timestamp levels ho h lv2 h1
  · rw [h1]
    exact ⟨by simp, fun x hx => by rw [List.mem_singleton.mp hx]⟩
  · rw [h2]
    obtain ⟨g1, g2⟩ := h (k, q) h1
    constructor
    · rw [List.map_append, List.pairwise_append]
      refine ⟨g1, by simp, ?_⟩
      intro a ha b hb
      obtain ⟨x, hx, rfl⟩ := List.mem_map.mp ha
      simp only [List.map_cons, List.map_nil, List.mem_singleton] at hb
      rw [hb]
      exact le_trans (g2 x hx) ho
    · intro x hx
      rcases List.mem_append.mp hx with h3 | h3
      · exact le_trans (g2 x h3) ho
      · rw [List.mem_singleton.mp h3]

/-- One `add_order` call made at a clock value not before any timestamp in the book keeps
every queue in non-decreasing timestamp order. -/
theorem add_order_stamped (T : Int) (book : OrderBook) (now id : Int) (price : Price)
    (quantity : Int) (side : Side) (hb : stamped T book.bids) (ha : stamped T book.asks)
    (hT : T ≤ now) :
    stamped now (add_order book now id price quantity side).2.bids ∧
      stamped now (add_order book now id price quantity side).2.asks := by
  cases side
  · have hm := matchLevels_stamped T Side.BUY id price book.asks quantity ha
    simp only [add_order, match_order]
    split
    · exact ⟨pushBack_stamped T greaterCmp price
        ⟨id, price, _, Side.BUY, now⟩ _ hb hT, stamped_mono T now _ hT hm⟩
    · exact ⟨stamped_mono T now _ hT hb, stamped_mono T now _ hT hm⟩
  · have hm := matchLevels_stamped T Side.SELL id price book.bids quantity hb
    simp only [add_order, match_order]
    split
    · exact ⟨stamped_mono T now _ hT hm, pushBack_stamped T lessCmp price
        ⟨id, price, _, Side.SELL, now⟩ _ ha hT⟩
    · exact ⟨stamped_mono T now _ hT hm, stamped_mono T now _ hT ha⟩

theorem submitAll_stamped (calls : List Call) :
    ∀ (T : Int) (book : OrderBook), stamped T book.bids → stamped T book.asks →
      (∀ c ∈ calls, T ≤ c.now) → (calls.map Call.now).Pairwise (· ≤ ·) →
      ∃ T2, stamped T2 (submitAll book calls).bids ∧ stamped T2 (submitAll book calls).asks := by
  induction calls with
  | nil => intro T book hb ha _ _; exact ⟨T, hb, ha⟩
  | cons c cs ih =>
    intro T book hb ha hT hp
    have h := add_order_stamped T book c.now c.id c.price c.quantity c.side hb ha
      (hT c (List.mem_cons_self _ _))
    simp only [List.map_cons, List.pairwise_cons] at hp
    exact ih c.now _ h.1 h.2
      (fun x hx => hp.1 x.now (List.mem_map_of_mem Call.now hx)) hp.2

/-- Every resting order carries the id and the clock value of one of the calls made. -/
theorem add_order_origin (S : List (Int × Int)) (book : OrderBook) (now id : Int)
    (price : Price) (quantity : Int) (side : Side)
    (h : ∀ lv ∈ book.bids ++ book.asks, ∀ o ∈ lv.2, (o.id, o.timestamp) ∈ S) :
    ∀ lv ∈ (add_order book now id price quantity side).2.bids ++
        (add_order book now id price quantity side).2.asks,
      ∀ o ∈ lv.2, (o.id, o.timestamp) ∈ S ++ [(id, now)] := by
  have hmatch : ∀ (sd : Side) (levels : List Level),
      (∀ lv ∈ levels, ∀ o ∈ lv.2, (o.id, o.timestamp) ∈ S) →
      ∀ lv ∈ (matchLevels sd id price quantity levels).levels, ∀ o ∈ lv.2,
        (o.id, o.timestamp) ∈ S ++ [(id, now)] := by
    intro sd levels hl lv2 hlv2 o2 ho2
    obtain ⟨lv, hlv, _, pre, hpre⟩ :=
      matchLevels_levels_map (fun o => (o.id, o.timestamp)) (fun _ _ => rfl) sd id price levels
        quantity lv2 hlv2
    have hmem : (o2.id, o2.timestamp) ∈ lv.2.map (fun o => (o.id, o.timestamp)) := by
      rw [hpre]
      exact List.mem_append_right _ (List.mem_map_of_mem _ ho2)
    obtain ⟨x, hx, heq⟩ := List.mem_map.mp hmem
    rw [← heq]
    exact List.mem_append_left _ (hl lv hlv x hx)
  have hpush : ∀ (comp : Price → Price → Bool) (r : Int) (levels : List Level),
      (∀ lv ∈ levels, ∀ o ∈ lv.2, (o.id, o.timestamp) ∈ S) →
      ∀ lv ∈ pushBack comp price ⟨id, price, r, side, now⟩ levels, ∀ o ∈ lv.2,
        (o.id, o.timestamp) ∈ S ++ [(id, now)] := by
    intro comp r levels hl lv2 hlv2 o2 ho2
    rcases pushBack_levels comp price _ levels lv2 hlv2 with h1 | h1 | ⟨k, q, h1, _, _, h2⟩
    · exact List.mem_append_left _ (hl lv2 h1 o2 ho2)
    · rw [h1] at ho2
      rw [List.mem_singleton.mp ho2]
      exact List.mem_append_right _ (List.mem_singleton.mpr rfl)
    · rw [h2] at ho2
      rcases List.mem_append.mp ho2 with h3 | h3
      · exact List.mem_append_left _ (hl (k, q) h1 o2 h3)
      · rw [List.mem_singleton.mp h3]
        exact List.mem_append_right _ (List.mem_singleton.mpr rfl)
  have hb : ∀ lv ∈ book.bids, ∀ o ∈ lv.2, (o.id, o.timestamp) ∈ S :=
    fun lv hlv => h lv (List.mem_append_left _ hlv)
  have ha : ∀ lv ∈ book.asks, ∀ o ∈ lv.2, (o.id, o.timestamp) ∈ S :=
    fun lv hlv => h lv (List.mem_append_right _ hlv)
  have hkeep : ∀ levels : List Level, (∀ lv ∈ levels, ∀ o ∈ lv.2, (o.id, o.timestamp) ∈ S) →
      ∀ lv ∈ levels, ∀ o ∈ lv.2, (o.id, o.timestamp) ∈ S ++ [(id, now)] :=
    fun levels hl lv hlv o ho => List.mem_append_left _ (hl lv hlv o ho)
  intro lv hlv
  cases side
  · simp only [add_order, match_order] at hlv
    split at hlv
    · rcases List.mem_append.mp hlv with g | g
      · exact hpush greaterCmp _ _ hb lv g
      · exact hmatch Side.BUY _ ha lv g
    · rcases List.mem_append.mp hlv with g | g
      · exact hkeep _ hb lv g
      · exact hmatch Side.BUY _ ha lv g
  · simp only [add_order, match_order] at hlv
    split at hlv
    · rcases List.mem_append.mp hlv with g | g
      · exact hmatch Side.SELL _ hb lv g
      · exact hpush lessCmp _ _ ha lv g
    · rcases List.mem_append.mp hlv with g | g
      · exact hmatch Side.SELL _ hb lv g
      · exact hkeep _ ha lv g

theorem submitAll_origin (calls : List Call) :
    ∀ (S : List (Int × Int)) (book : OrderBook),
      (∀ lv ∈ book.bids ++ book.asks, ∀ o ∈ lv.2, (o.id, o.timestamp) ∈ S) →
      ∀ lv ∈ (submitAll book calls).bids ++ (submitAll book calls).asks, ∀ o ∈ lv.2,
        (o.id, o.timestamp) ∈ S ++ calls.map (fun c => (c.id, c.now)) := by
  induction calls with
  | nil => intro S book h; simpa using h
  | cons c cs ih =>
    intro S book h lv hlv o ho
    have h1 := add_order_origin S book c.now c.id c.price c.quantity c.side h
    have h2 := ih (S ++ [(c.id, c.now)]) _ h1 lv hlv o ho
    simpa [List.append_assoc] using h2

theorem submitAll_sameSecondCalls :
    submitAll OrderBook.empty sameSecondCalls =
      { bids := []
        asks := [(Price.fin 100, [⟨1, Price.fin 100, 10, Side.SELL, 7⟩, ⟨2, Price.fin 100, 10, Side.SELL, 7⟩])] } := by
  norm_num [sameSecondCalls, submitAll, add_order, match_order, matchLevels_nil, pushBack,
    OrderBook.empty, lessCmp]

/-- C15, as stated, fails: two SELL orders submitted at one price within the same second
rest in one queue with the same timestamp, so the stamped values are reused and the queue
is not strictly ascending. -/
theorem time_priority_keys_counterexample :
    (flatten (submitAll OrderBook.empty sameSecondCalls).asks).map Order.timestamp = [7, 7] ∧
      ¬ ((flatten (submitAll OrderBook.empty sameSecondCalls).asks).map
        Order.timestamp).Pairwise (· < ·) := by
  rw [submitAll_sameSecondCalls]
  simp [flatten]

/-- C15, amended. For every sequence of `add_order` calls, the timestamp of every order
resting in the book is the clock value read by the `add_order` call that inserted it; when
the clock values of the successive calls do not decrease, the timestamps within every
level queue do not decrease from front to back (calls within one second stamp equal
values). -/
theorem time_priority_keys (calls : List Call) :
    (∀ lv ∈ (submitAll OrderBook.empty calls).bids ++ (submitAll OrderBook.empty calls).asks,
        ∀ o ∈ lv.2, ∃ c ∈ calls, o.id = c.id ∧ o.timestamp = c.now) ∧
      ((calls.map Call.now).Pairwise (· ≤ ·) →
        ∀ lv ∈ (submitAll OrderBook.empty calls).bids ++ (submitAll OrderBook.empty calls).asks,
          (lv.2.map Order.timestamp).Pairwise (· ≤ ·)) := by
  constructor
  · intro lv hlv o ho
    have h := submitAll_origin calls [] OrderBook.empty
      (fun lv h => by simp [OrderBook.empty] at h) lv hlv o ho
    simp only [List.nil_append, List.mem_map, Prod.mk.injEq] at h
    obtain ⟨c, hc, h1, h2⟩ := h
    exact ⟨c, hc, h1.symm, h2.symm⟩
  · intro hclock
    have hempty : ∀ T : Int, stamped T ([] : List Level) := fun T lv h => by simp at h
    have hex : ∃ T : Int, ∀ c ∈ calls, T ≤ c.now := by
      cases calls with
      | nil => exact ⟨0, fun c h => by simp at h⟩
      | cons c cs =>
        refine ⟨c.now, fun x hx => ?_⟩
        simp only [List.map_cons, List.pairwise_cons] at hclock
        rcases List.mem_cons.mp hx with h | h
        · rw [h]
        · exact hclock.1 x.now (List.mem_map_of_mem Call.now h)
    obtain ⟨T, hT⟩ := hex
    obtain ⟨T2, hb, ha⟩ :=
      submitAll_stamped calls T OrderBook.empty (hempty T) (hempty T) hT hclock
    intro lv hlv
    rcases List.mem_append.mp hlv with h | h
    · exact (hb lv h).1
    · exact (ha lv h).1

/-- Witness of C15 amended: the two same-second calls read the clock values 7, 7; the two
orders of the queue they fill carry the ids and clock values of those calls, and the queue
carries the timestamps 7, 7. -/
theorem time_priority_keys_witness :
    (sameSecondCalls.map Call.now).Pairwise (· ≤ ·) ∧
      (∀ lv ∈ (submitAll OrderBook.empty sameSecondCalls).bids ++
          (submitAll OrderBook.empty sameSecondCalls).asks,
        ∀ o ∈ lv.2, ∃ c ∈ sameSecondCalls, o.id = c.id ∧ o.timestamp = c.now) ∧
      (∀ lv ∈ (submitAll OrderBook.empty sameSecondCalls).bids ++
          (submitAll OrderBook.empty sameSecondCalls).asks,
        (lv.2.map Order.timestamp).Pairwise (· ≤ ·)) :=
  ⟨by simp [sameSecondCalls], (time_priority_keys sameSecondCalls).1,
    (time_priority_keys sameSecondCalls).2 (by simp [sameSecondCalls])⟩

/-! ## A partial fill keeps the queue position -/

theorem queueQty_append (q1 q2 : List Order) :
    queueQty (q1 ++ q2) = queueQty q1 + queueQty q2 := by
  simp [queueQty]

theorem flatten_cons (bp : Price) (q : List Order) (rest : List Level) :
    flatten ((bp, q) :: rest) = q ++ flatten rest := by
  simp [flatten]

theorem mem_flatten_opposing (side : Side) (book : OrderBook) (o : Order)
    (h : o ∈ flatten (opposing side book)) : o ∈ flatten book.bids ++ flatten book.asks := by
  cases side
  · exact List.mem_append_right _ h
  · exact List.mem_append_left _ h

/-- The inner loop takes from the queue exactly what it trades. -/
theorem fillQueue_volume (side : Side) (id : Int) (bp : Price) (q : List Order)
    (hq : ∀ o ∈ q, 0 < o.quantity ∧ o.quantity < 2147483648) :
    ∀ r : Int, queueQty (fillQueue side id bp r q).queue +
      tradedQty (fillQueue side id bp r q).trades = queueQty q := by
  induction q with
  | nil => intro r; simp [fillQueue_nil, queueQty_nil, tradedQty_nil]
  | cons o rest ih =>
    intro r
    have ho := hq o (List.mem_cons_self _ _)
    by_cases hr : 0 < r
    · by_cases hz : wrap32 (o.quantity - min r o.quantity) = 0
      · rw [fillQueue_pop side id bp r o rest hr hz]
        have hmin1 : 0 < min r o.quantity := lt_min hr ho.1
        have hmin2 : min r o.quantity ≤ o.quantity := min_le_right _ _
        have hw : wrap32 (o.quantity - min r o.quantity) = o.quantity - min r o.quantity :=
          wrap32_of_isInt32 _ ⟨by omega, by omega⟩
        have := ih (fun x hx => hq x (List.mem_cons_of_mem _ hx)) (wrap32 (r - min r o.quantity))
        simp only [tradedQty_cons, mkTrade_qty, queueQty_cons]
        omega
      · rw [fillQueue_keep side id bp r o rest hr hz]
        have hmin1 : 0 < min r o.quantity := lt_min hr ho.1
        have hmin2 : min r o.quantity ≤ o.quantity := min_le_right _ _
        have hw : wrap32 (o.quantity - min r o.quantity) = o.quantity - min r o.quantity :=
          wrap32_of_isInt32 _ ⟨by omega, by omega⟩
        simp only [tradedQty_cons, tradedQty_nil, mkTrade_qty, queueQty_cons, hw]
        omega
    · rw [fillQueue_stop side id bp r o rest hr]
      simp [tradedQty_nil]

/-- The outer loop takes from the opposing map exactly what it trades. -/
theorem matchLevels_volume (side : Side) (id : Int) (price : Price) (levels : List Level)
    (hq : ∀ o ∈ flatten levels, 0 < o.quantity ∧ o.quantity < 2147483648) :
    ∀ r : Int, queueQty (flatten (matchLevels side id price r levels).levels) +
      tradedQty (matchLevels side id price r levels).trades = queueQty (flatten levels) := by
  induction levels with
  | nil => intro r; simp [matchLevels_nil, tradedQty_nil]
  | cons lv rest ih =>
    intro r
    obtain ⟨bp, q⟩ := lv
    have h1 : ∀ o ∈ q, 0 < o.quantity ∧ o.quantity < 2147483648 := fun o ho =>
      hq o (by rw [flatten_cons]; exact List.mem_append_left _ ho)
    have h2 : ∀ o ∈ flatten rest, 0 < o.quantity ∧ o.quantity < 2147483648 := fun o ho =>
      hq o (by rw [flatten_cons]; exact List.mem_append_right _ ho)
    have hf := fillQueue_volume side id bp q h1 r
    by_cases hr : 0 < r
    · cases hn : noDeal side price bp
      · by_cases he : (fillQueue side id bp r q).queue = []
        · rw [matchLevels_erase side id price r bp q rest hr hn he]
          have := ih h2 (fillQueue side id bp r q).remaining
          rw [he, queueQty_nil] at hf
          simp only [tradedQty_append, flatten_cons, queueQty_append]
          omega
        · rw [matchLevels_keep side id price r bp q rest hr hn he]
          simp only [flatten_cons, queueQty_append]
          omega
      · rw [matchLevels_noDeal side id price r bp q rest hr hn]
        simp [tradedQty_nil]
    · rw [matchLevels_stop side id price r _ hr]
      simp [tradedQty_nil]

theorem pushBack_volume (comp : Price → Price → Bool) (p : Price) (o : Order)
    (levels : List Level) :
    queueQty (flatten (pushBack comp p o levels)) = queueQty (flatten levels) + o.quantity := by
  induction levels with
  | nil => simp [pushBack, flatten, queueQty]
  | cons lv rest ih =>
    obtain ⟨k, q⟩ := lv
    simp only [pushBack]
    split
    · simp only [flatten_cons, queueQty_append, ih]
      omega
    · split
      · simp only [flatten_cons, queueQty_append, queueQty_cons, queueQty_nil]
        omega
      · simp only [flatten_cons, queueQty_append, queueQty_cons, queueQty_nil]
        omega

/-- C17. For a book whose resting orders have positive (`int`) quantity and an `add_order`
call with `quantity > 0` (an `int`): the total resting quantity on the opposing side after
the call is the total before minus the matched units of the emitted trades; the total on
the same side after the call is the total before plus the remaining quantity returned by
matching; so the total book volume after is the total before `+ quantity - 2 *` traded. -/
theorem volume_conservation (book : OrderBook) (now id : Int) (price : Price)
    (quantity : Int) (side : Side)
    (hpos : ∀ o ∈ flatten book.bids ++ flatten book.asks, 0 < o.quantity ∧ isInt32 o.quantity)
    (hq : 0 < quantity) (hint : isInt32 quantity) :
    queueQty (flatten (opposing side (add_order book now id price quantity side).2)) =
        queueQty (flatten (opposing side book)) -
          tradedQty (add_order book now id price quantity side).1 ∧
      queueQty (flatten (sameSide side (add_order book now id price quantity side).2)) =
        queueQty (flatten (sameSide side book)) +
          (match_order book id price quantity side).2.1 ∧
      queueQty (flatten (add_order book now id price quantity side).2.bids) +
          queueQty (flatten (add_order book now id price quantity side).2.asks) =
        queueQty (flatten book.bids) + queueQty (flatten book.asks) + quantity -
          2 * tradedQty (add_order book now id price quantity side).1 := by
  have hall : ∀ x ∈ flatten (opposing side book), 0 < x.quantity ∧ x.quantity < 2147483648 :=
    fun x hx => ⟨(hpos x (mem_flatten_opposing side book x hx)).1,
      (hpos x (mem_flatten_opposing side book x hx)).2.2⟩
  have hv := matchLevels_volume side id price (opposing side book) hall quantity
  obtain ⟨c1, _, c3⟩ := matchLevels_conservation side id price (opposing side book)
    (fun o ho => (hall o ho).1) quantity (le_of_lt hq) hint.2
  have hopp : queueQty (flatten (opposing side (add_order book now id price quantity side).2)) =
      queueQty (flatten (opposing side book)) -
        tradedQty (add_order book now id price quantity side).1 := by
    rw [add_order_opposing, add_order_trades, match_order_trades]
    omega
  have hsame : queueQty (flatten (sameSide side (add_order book now id price quantity side).2)) =
      queueQty (flatten (sameSide side book)) + (match_order book id price quantity side).2.1 := by
    rw [add_order_sameSide, match_order_remaining]
    split
    · rw [pushBack_volume]
    · omega
  refine ⟨hopp, hsame, ?_⟩
  rw [add_order_trades, match_order_trades] at hopp ⊢
  rw [match_order_remaining] at hsame
  cases side
  · simp only [opposing, sameSide] at hopp hsame c1 c3 ⊢
    omega
  · simp only [opposing, sameSide] at hopp hsame c1 c3 ⊢
    omega

/-- Witness of C17: the aggressive BUY of `main` trades 100 units and rests 20: asks go
from 150 to 50, bids from 200 to 220. -/
theorem volume_conservation_witness :
    (∀ o ∈ flatten mainBook.bids ++ flatten mainBook.asks,
        0 < o.quantity ∧ isInt32 o.quantity) ∧ (0 : Int) < 120 ∧ isInt32 120 ∧
      queueQty (flatten mainBook.asks) = 150 ∧ queueQty (flatten mainBook.bids) = 200 ∧
      tradedQty (add_order mainBook 0 301 (Price.fin (211 / 2)) 120 Side.BUY).1 = 100 ∧
      (queueQty (flatten (opposing Side.BUY (add_order mainBook 0 301 (Price.fin (211 / 2)) 120 Side.BUY).2)) =
          queueQty (flatten (opposing Side.BUY mainBook)) -
            tradedQty (add_order mainBook 0 301 (Price.fin (211 / 2)) 120 Side.BUY).1 ∧
        queueQty (flatten (sameSide Side.BUY (add_order mainBook 0 301 (Price.fin (211 / 2)) 120 Side.BUY).2)) =
          queueQty (flatten (sameSide Side.BUY mainBook)) +
            (match_order mainBook 301 (Price.fin (211 / 2)) 120 Side.BUY).2.1 ∧
        queueQty (flatten (add_order mainBook 0 301 (Price.fin (211 / 2)) 120 Side.BUY).2.bids) +
            queueQty (flatten (add_order mainBook 0 301 (Price.fin (211 / 2)) 120 Side.BUY).2.asks) =
          queueQty (flatten mainBook.bids) + queueQty (flatten mainBook.asks) + 120 -
            2 * tradedQty (add_order mainBook 0 301 (Price.fin (211 / 2)) 120 Side.BUY).1) := by
  have hpos : ∀ o ∈ flatten mainBook.bids ++ flatten mainBook.asks,
      0 < o.quantity ∧ isInt32 o.quantity := by
    intro o ho
    simp only [mainBook, flatten, List.flatMap_cons, List.flatMap_nil, List.append_nil,
      List.mem_append, List.mem_cons, List.mem_singleton, List.not_mem_nil, or_false] at ho
    rcases ho with h | h | h <;> (rw [h]; exact ⟨by decide, by decide⟩)
  refine ⟨hpos, by decide, by decide, by simp [mainBook, flatten, queueQty],
    by simp [mainBook, flatten, queueQty], ?_,
    volume_conservation mainBook 0 301 (Price.fin (211 / 2)) 120 Side.BUY hpos (by decide) (by decide)⟩
  rw [add_order_trades, match_order_mainBook]
  simp [tradedQty]

/-! ## Termination and the number of trades -/

/-- The inner loop is its body followed by the loop on the state the body leaves. -/
theorem fillQueue_step (side : Side) (id : Int) (bp : Price) (r : Int) (o : Order)
    (rest : List Order) (hr : 0 < r) :
    fillQueue side id bp r (o :: rest) =
      ⟨(fillStep side id bp r o rest).1 ::
          (fillQueue side id bp (fillStep side id bp r o rest).2.1
            (fillStep side id bp r o rest).2.2).trades,
        (fillQueue side id bp (fillStep side id bp r o rest).2.1
          (fillStep side id bp r o rest).2.2).remaining,
        (fillQueue side id bp (fillStep side id bp r o rest).2.1
          (fillStep side id bp r o rest).2.2).queue⟩ := by
  by_cases hz : wrap32 (o.quantity - min r o.quantity) = 0
  · rw [fillQueue_pop side id bp r o rest hr hz]
    simp only [fillStep, hz, if_true]
  · rw [fillQueue_keep side id bp r o rest hr hz]
    simp only [fillStep, hz, if_false]
    rw [wrap32_rem_of_front_left r o.quantity hz, fillQueue_stop _ _ _ _ _ _ (lt_irrefl 0)]

theorem matchLevels_trades_length (side : Side) (id : Int) (price : Price)
    (levels : List Level) (r : Int) :
    (matchLevels side id price r levels).trades.length ≤ (flatten levels).length := by
  rw [flatten_eq_tagged, List.length_map]
  rcases matchLevels_trace side id price levels r with
    ⟨pre, post, h1, h2⟩ | ⟨pre, x, post, t, h1, h2, _⟩
  · rw [h1, h2]
    simp
  · rw [h1, h2]
    simp

/-- C18. `match_order` is a total function of every book state whatsoever and every call:
both loops are defined by recursion on a measure that each pass decreases. Each pass
through the inner loop emits one trade and either removes the front resting order or drives
the remaining quantity to 0; each pass through the outer loop that does not break either
erases the best level or leaves nothing to fill. Consequently the number of trades emitted
is at most the number of orders resting on the opposing side before the call. -/
theorem matching_terminates (book : OrderBook) (id : Int) (price : Price) (quantity : Int)
    (side : Side) :
    (match_order book id price quantity side).1.length ≤
        (flatten (opposing side book)).length ∧
      (∀ (bp : Price) (r : Int) (o : Order) (rest : List Order), 0 < r →
        fillQueue side id bp r (o :: rest) =
            ⟨(fillStep side id bp r o rest).1 ::
                (fillQueue side id bp (fillStep side id bp r o rest).2.1
                  (fillStep side id bp r o rest).2.2).trades,
              (fillQueue side id bp (fillStep side id bp r o rest).2.1
                (fillStep side id bp r o rest).2.2).remaining,
              (fillQueue side id bp (fillStep side id bp r o rest).2.1
                (fillStep side id bp r o rest).2.2).queue⟩ ∧
          ((fillStep side id bp r o rest).2.2 = rest ∨
            (fillStep side id bp r o rest).2.1 = 0)) ∧
      (∀ (bp : Price) (r : Int) (q : List Order),
        (fillQueue side id bp r q).queue = [] ∨ ¬ 0 < (fillQueue side id bp r q).remaining) := by
  refine ⟨?_, ?_, ?_⟩
  · rw [match_order_trades]
    exact matchLevels_trades_length side id price _ quantity
  · intro bp r o rest hr
    refine ⟨fillQueue_step side id bp r o rest hr, ?_⟩
    by_cases hz : wrap32 (o.quantity - min r o.quantity) = 0
    · exact Or.inl (by simp only [fillStep, hz, if_true])
    · exact Or.inr (wrap32_rem_of_front_left r o.quantity hz)
  · intro bp r q
    by_cases he : (fillQueue side id bp r q).queue = []
    · exact Or.inl he
    · exact Or.inr (fillQueue_remaining_of_queue side id bp q r he)

/-- Instance of C18 on a book holding a resting order of quantity 0 and one of negative
quantity: a BUY of 5 units emits three trades against three resting orders. -/
theorem matching_terminates_witness :
    (match_order ⟨[], [(Price.fin 100, [⟨1, Price.fin 100, 0, Side.SELL, 0⟩,
        ⟨2, Price.fin 100, -3, Side.SELL, 0⟩, ⟨3, Price.fin 100, 50, Side.SELL, 0⟩])]⟩
        9 (Price.fin 100) 5 Side.BUY).1 =
        [⟨0, Price.fin 100, 9, 1⟩, ⟨-3, Price.fin 100, 9, 2⟩, ⟨8, Price.fin 100, 9, 3⟩] ∧
      (match_order ⟨[], [(Price.fin 100, [⟨1, Price.fin 100, 0, Side.SELL, 0⟩,
        ⟨2, Price.fin 100, -3, Side.SELL, 0⟩, ⟨3, Price.fin 100, 50, Side.SELL, 0⟩])]⟩
        9 (Price.fin 100) 5 Side.BUY).1.length ≤
        (flatten (opposing Side.BUY ⟨[], [(Price.fin 100, [⟨1, Price.fin 100, 0, Side.SELL, 0⟩,
          ⟨2, Price.fin 100, -3, Side.SELL, 0⟩, ⟨3, Price.fin 100, 50, Side.SELL, 0⟩])]⟩)).length := by
  refine ⟨?_, (matching_terminates _ 9 (Price.fin 100) 5 Side.BUY).1⟩
  norm_num [match_order, matchLevels_nil, matchLevels_stop, matchLevels_noDeal,
    matchLevels_erase, matchLevels_keep, fillQueue_nil, fillQueue_pop, fillQueue_keep, wrap32,
    noDeal, mkTrade]

end PSXAlpha
